import Mathlib

/-!
Verification of the gunrock frontier-driven graph traversal engine
against its natural-language specification.  The definitions below are
shallow embeddings of the CUDA/C++ sources: `gunrock/util/test_utils.h`
(the load-balanced advance dispatch), the connected-components enactor
and entry points, and the betweenness-centrality enactor's forward /
backward iteration structures.  Machine integers are modelled as `Int`
(VertexId / SizeT are 32-bit signed ints in the source; none of the
verified properties involve overflow), device arrays as `List`, and a
raw array read that may be out of bounds as an `Option`-returning read.
-/

namespace Gunrock

/-- Read of a C array at a signed index: `none` models an out-of-bounds
access (index negative or at/after the end of the allocation). -/
def listRead (l : List Int) (i : Int) : Option Int :=
  if h : 0 ≤ i ∧ i.toNat < l.length then some (l.get ⟨i.toNat, h.2⟩) else none

/-- Advance direction, `gunrock::oprtr::advance::TYPE`. -/
inductive AdvanceType where
  | V2V | V2E | E2V | E2E
deriving DecidableEq, Repr

/-- Embedding of `Dispatch::GetNeighborListLength` (test_utils.h:504):
`first = v >= max_vertex ? max_edge : row_offsets[v]`,
`second = v+1 >= max_vertex ? max_edge : row_offsets[v+1]`,
result `second > first ? second - first : 0`.  A `none` result means the
device code would have read `row_offsets` out of bounds. -/
def GetNeighborListLength (row_offsets : List Int)
    (v max_vertex max_edge : Int) : Option Int := do
  let first ← if v ≥ max_vertex then some max_edge else listRead row_offsets v
  let second ← if v + 1 ≥ max_vertex then some max_edge else listRead row_offsets (v + 1)
  some (if second > first then second - first else 0)

/-- Embedding of one thread of `Dispatch::GetEdgeCounts` (test_utils.h:520):
what the thread with flat id `my_id` writes into `d_scanned_edges[my_id]`.
The outer `Option` is `none` when the thread returns without writing
(guard `my_id > num_elements || my_id >= max_edge`); the inner `Option`
is `none` when an array read inside the thread would be out of bounds. -/
def GetEdgeCounts_entry (row_offsets column_indices : List Int)
    (column_offsets row_indices : List Int)
    (d_queue : List Int) (num_elements : Int) (max_vertex max_edge : Int)
    (adv : AdvanceType) (in_inv out_inv : Bool) (my_id : Int) :
    Option (Option Int) :=
  if my_id > num_elements ∨ my_id ≥ max_edge then none
  else some (do
    let column_index ← if in_inv then listRead row_indices my_id
                       else listRead column_indices my_id
    let v_id ← if adv = .V2E ∨ adv = .V2V then
                 (if my_id ≥ num_elements then some (-1) else listRead d_queue my_id)
               else
                 (if my_id ≥ num_elements then some (-1) else some column_index)
    if v_id < 0 ∨ v_id > max_vertex then some 0
    else do
      let ncount ← if ¬ out_inv then
                     GetNeighborListLength row_offsets v_id max_vertex max_edge
                   else
                     GetNeighborListLength column_offsets v_id max_vertex max_edge
      some (if my_id = num_elements then 0 else ncount))

theorem listRead_eq_getD (l : List Int) (i : Int) (h0 : 0 ≤ i)
    (h1 : i.toNat < l.length) : listRead l i = some (l.getD i.toNat 0) := by
  unfold listRead
  rw [dif_pos ⟨h0, h1⟩]
  simp [List.getD_eq_getElem?_getD, List.getElem?_eq_getElem h1]

/-- The CSR out-degree of vertex `v`: `row_offsets[v+1] - row_offsets[v]`
(the spec's formula for the neighbor-list length). -/
def csrDegree (row_offsets : List Int) (v : Int) : Int :=
  row_offsets.getD (v.toNat + 1) 0 - row_offsets.getD v.toNat 0

theorem getNeighborListLength_eq (row_offsets : List Int) (nodes edges v : Int)
    (hnn : 0 ≤ nodes)
    (hlen : row_offsets.length = nodes.toNat + 1)
    (hmono : ∀ i : Nat, i + 1 ≤ nodes.toNat →
      row_offsets.getD i 0 ≤ row_offsets.getD (i + 1) 0)
    (hlast : row_offsets.getD nodes.toNat 0 = edges)
    (hv0 : 0 ≤ v) (hv : v < nodes) :
    GetNeighborListLength row_offsets v nodes edges
      = some (csrDegree row_offsets v) := by
  have hvN : v.toNat < nodes.toNat := by omega
  have hsucc : v.toNat + 1 ≤ nodes.toNat := hvN
  have hread1 : listRead row_offsets v = some (row_offsets.getD v.toNat 0) :=
    listRead_eq_getD _ _ hv0 (by omega)
  have hmono1 : row_offsets.getD v.toNat 0 ≤ row_offsets.getD (v.toNat + 1) 0 :=
    hmono v.toNat hsucc
  unfold GetNeighborListLength
  rw [if_neg (by omega)]
  rw [hread1]
  simp only [Option.bind_eq_bind, Option.some_bind]
  by_cases hv1 : v + 1 ≥ nodes
  · -- v is the last vertex: the sentinel `max_edge = edges` is used and equals
    -- `row_offsets[nodes]` by the CSR invariant.
    have hveq : v.toNat + 1 = nodes.toNat := by omega
    rw [if_pos hv1]
    simp only [Option.some_bind, csrDegree]
    rw [← hlast, ← hveq]
    have : row_offsets.getD (v.toNat + 1) 0 > row_offsets.getD v.toNat 0
         ∨ row_offsets.getD (v.toNat + 1) 0 = row_offsets.getD v.toNat 0 := by omega
    rcases this with h | h
    · rw [if_pos h]
    · have hng : ¬ row_offsets.getD (v.toNat + 1) 0 > row_offsets.getD v.toNat 0 := by
        omega
      rw [if_neg hng, h, sub_self]
  · have hread2 : listRead row_offsets (v + 1)
        = some (row_offsets.getD (v.toNat + 1) 0) := by
      have h1 : (0 : Int) ≤ v + 1 := by omega
      have h2 : (v + 1).toNat < row_offsets.length := by omega
      have := listRead_eq_getD row_offsets (v + 1) h1 h2
      rwa [show (v + 1).toNat = v.toNat + 1 by omega] at this
    rw [if_neg hv1, hread2]
    simp only [Option.some_bind, csrDegree]
    rcases lt_or_eq_of_le hmono1 with h | h
    · rw [if_pos h]
    · have hng : ¬ row_offsets.getD (v.toNat + 1) 0 > row_offsets.getD v.toNat 0 := by
        omega
      rw [if_neg hng, ← h, sub_self]

/-- C3 (amended with `num_elements < max_edge`): `GetEdgeCounts` writes at
each frontier position `i < num_elements` the neighbor-list length of
`d_queue[i]`, a zero at the sentinel position `i = num_elements`, and
`GetNeighborListLength v = row_offsets[v+1] - row_offsets[v]` for in-range
`v`; the written entries sum to the frontier's total neighbor count. -/
theorem getEdgeCounts_writes_degrees
    (row_offsets column_indices column_offsets row_indices d_queue : List Int)
    (nodes edges num_elements : Int) (adv : AdvanceType)
    (hadv : adv = .V2V ∨ adv = .V2E)
    (hnn : 0 ≤ nodes)
    (hlen : row_offsets.length = nodes.toNat + 1)
    (hmono : ∀ i : Nat, i + 1 ≤ nodes.toNat →
      row_offsets.getD i 0 ≤ row_offsets.getD (i + 1) 0)
    (hlast : row_offsets.getD nodes.toNat 0 = edges)
    (hne0 : 0 ≤ num_elements)
    (hedge : num_elements < edges)
    (hqlen : num_elements.toNat ≤ d_queue.length)
    (hclen : edges.toNat ≤ column_indices.length)
    (hqv : ∀ i : Nat, i < num_elements.toNat →
      0 ≤ d_queue.getD i 0 ∧ d_queue.getD i 0 < nodes) :
    (∀ i : Int, 0 ≤ i → i ≤ num_elements →
      GetEdgeCounts_entry row_offsets column_indices column_offsets row_indices
        d_queue num_elements nodes edges adv false false i
      = some (some (if i = num_elements then 0
                    else csrDegree row_offsets (d_queue.getD i.toNat 0))))
    ∧ (∀ v : Int, 0 ≤ v → v < nodes →
        GetNeighborListLength row_offsets v nodes edges
          = some (csrDegree row_offsets v)) := by
  refine ⟨?_, fun v hv0 hv => getNeighborListLength_eq _ _ _ _ hnn hlen hmono hlast hv0 hv⟩
  intro i hi0 hile
  have hguard : ¬ (i > num_elements ∨ i ≥ edges) := by omega
  unfold GetEdgeCounts_entry
  rw [if_neg hguard]
  have hcol : listRead column_indices i = some (column_indices.getD i.toNat 0) :=
    listRead_eq_getD _ _ hi0 (by omega)
  have hmode : adv = AdvanceType.V2E ∨ adv = AdvanceType.V2V := hadv.symm
  rw [if_neg Bool.false_ne_true, hcol]
  simp only [Option.bind_eq_bind, Option.some_bind]
  rcases lt_or_eq_of_le hile with hlt | heq
  · -- a real frontier position: the queue entry's degree is written
    have hiN : i.toNat < num_elements.toNat := by omega
    have hqi : listRead d_queue i = some (d_queue.getD i.toNat 0) :=
      listRead_eq_getD _ _ hi0 (by omega)
    obtain ⟨hq0, hqn⟩ := hqv i.toNat hiN
    have hge : ¬ i ≥ num_elements := by omega
    rw [if_pos hmode, if_neg hge, hqi]
    simp only [Option.some_bind]
    have hrange : ¬ (d_queue.getD i.toNat 0 < 0 ∨ d_queue.getD i.toNat 0 > nodes) := by
      omega
    rw [if_neg hrange, if_pos Bool.false_ne_true]
    rw [getNeighborListLength_eq _ _ _ _ hnn hlen hmono hlast hq0 hqn]
    simp only [Option.some_bind]
  · -- the sentinel position: `v_id = -1` and a zero entry is written
    subst heq
    rw [if_pos hmode, if_pos (le_refl _)]
    simp only [Option.some_bind]
    have hrange : ((-1 : Int) < 0 ∨ (-1 : Int) > nodes) := by omega
    rw [if_pos hrange]
    simp

theorem getEdgeCounts_witness :
    (GetEdgeCounts_entry [0, 1, 2] [1, 0] [] [] [0] 1 2 2 .V2V false false 0
      = some (some 1))
    ∧ (GetEdgeCounts_entry [0, 1, 2] [1, 0] [] [] [0] 1 2 2 .V2V false false 1
      = some (some 0)) := by
  have h := getEdgeCounts_writes_degrees [0, 1, 2] [1, 0] [] [] [0] 2 2 1 .V2V
    (Or.inl rfl) (by decide) (by decide)
    (by intro i hi
        have h2 : i = 0 ∨ i = 1 := by omega
        rcases h2 with h | h <;> subst h <;> decide)
    (by decide) (by decide) (by decide) (by decide) (by decide)
    (by intro i hi; have h2 : i = 0 := by omega
        rw [h2]; exact ⟨by decide, by decide⟩)
  refine ⟨?_, ?_⟩
  · have := h.1 0 (by decide) (by decide)
    simpa using this
  · have := h.1 1 (by decide) (by decide)
    simpa using this

/-- C3 counterexample: with `num_elements = 2 ≥ max_edge = 1` (a frontier at
least as long as the edge count), the guard `my_id >= max_edge` makes the
thread for the in-bounds frontier position `1` return without writing its
entry, and likewise for the sentinel position `2`. -/
theorem getEdgeCounts_skips_when_frontier_exceeds_edges :
    GetEdgeCounts_entry [0, 1, 1] [1] [] [] [0, 1] 2 2 1 .V2V false false 1 = none
    ∧ GetEdgeCounts_entry [0, 1, 1] [1] [] [] [0, 1] 2 2 1 .V2V false false 2 = none
    ∧ (0 : Int) ≤ [(0 : Int), 1].getD 1 0 ∧ [(0 : Int), 1].getD 1 0 < 2 := by
  refine ⟨?_, ?_, by decide, by decide⟩ <;> rfl

theorem getNeighborListLength_total_nonneg (row_offsets : List Int)
    (v max_vertex max_edge : Int) (hv : 0 ≤ v)
    (hmv : max_vertex ≤ (row_offsets.length : Int)) :
    ∃ n, GetNeighborListLength row_offsets v max_vertex max_edge = some n ∧ 0 ≤ n := by
  unfold GetNeighborListLength
  by_cases h1 : v ≥ max_vertex
  · have h2 : v + 1 ≥ max_vertex := by omega
    rw [if_pos h1]
    simp only [Option.bind_eq_bind, Option.some_bind]
    rw [if_pos h2]
    refine ⟨_, rfl, ?_⟩
    split <;> omega
  · have hr1 : listRead row_offsets v = some (row_offsets.getD v.toNat 0) :=
      listRead_eq_getD _ _ hv (by omega)
    rw [if_neg h1, hr1]
    simp only [Option.bind_eq_bind, Option.some_bind]
    by_cases h2 : v + 1 ≥ max_vertex
    · rw [if_pos h2]
      refine ⟨_, rfl, ?_⟩
      split <;> omega
    · have hr2 : listRead row_offsets (v + 1)
          = some (row_offsets.getD (v + 1).toNat 0) :=
        listRead_eq_getD _ _ (by omega) (by omega)
      rw [if_neg h2, hr2]
      simp only [Option.some_bind]
      refine ⟨_, rfl, ?_⟩
      split <;> omega

theorem getNeighborListLength_sentinel (row_offsets : List Int)
    (v max_vertex max_edge : Int) (hv : max_vertex ≤ v) :
    GetNeighborListLength row_offsets v max_vertex max_edge = some 0 := by
  unfold GetNeighborListLength
  have h1 : v ≥ max_vertex := by omega
  have h2 : v + 1 ≥ max_vertex := by omega
  rw [if_pos h1]
  simp only [Option.bind_eq_bind, Option.some_bind]
  rw [if_pos h2]
  simp

theorem getEdgeCounts_out_of_range_writes_zero
    (row_offsets column_indices column_offsets row_indices d_queue : List Int)
    (num_elements max_vertex max_edge my_id : Int) (adv : AdvanceType)
    (hadv : adv = .V2V ∨ adv = .V2E)
    (hmy0 : 0 ≤ my_id) (hlt : my_id < num_elements)
    (hguard : ¬ (my_id > num_elements ∨ my_id ≥ max_edge))
    (hcl : my_id.toNat < column_indices.length)
    (hql : my_id.toNat < d_queue.length)
    (hw : d_queue.getD my_id.toNat 0 < 0 ∨ max_vertex ≤ d_queue.getD my_id.toNat 0) :
    GetEdgeCounts_entry row_offsets column_indices column_offsets row_indices
      d_queue num_elements max_vertex max_edge adv false false my_id
    = some (some 0) := by
  have hmode : adv = AdvanceType.V2E ∨ adv = AdvanceType.V2V := hadv.symm
  unfold GetEdgeCounts_entry
  rw [if_neg hguard, if_neg Bool.false_ne_true,
      listRead_eq_getD _ _ hmy0 hcl]
  simp only [Option.bind_eq_bind, Option.some_bind]
  have hge : ¬ my_id ≥ num_elements := by omega
  rw [if_pos hmode, if_neg hge, listRead_eq_getD _ _ hmy0 hql]
  simp only [Option.some_bind]
  by_cases hcase : d_queue.getD my_id.toNat 0 < 0
             ∨ d_queue.getD my_id.toNat 0 > max_vertex
  · rw [if_pos hcase]
  · -- the entry equals `max_vertex` exactly: both offsets take the
    -- `max_edge` sentinel and the computed length is zero
    have heq : max_vertex ≤ d_queue.getD my_id.toNat 0 := by
      rcases hw with h | h
      · exact absurd (Or.inl h) hcase
      · exact h
    rw [if_neg hcase, if_pos Bool.false_ne_true,
        getNeighborListLength_sentinel _ _ _ _ heq]
    simp only [Option.some_bind]
    have hne : ¬ my_id = num_elements := by omega
    rw [if_neg hne]

/-- C10 counterexample: a negative vertex id below `max_vertex` makes
`GetNeighborListLength` read `row_offsets` out of bounds (modelled as
`none`), so the function is not total on arbitrary inputs. -/
theorem getNeighborListLength_negative_oob :
    GetNeighborListLength [0, 5] (-1) 1 5 = none := by rfl

/-- C10 (amended to non-negative vertex ids): for every vertex id `v ≥ 0`
and bounds with `max_vertex ≤ |row_offsets|`, `GetNeighborListLength` is
total and non-negative, a vertex at or beyond `max_vertex` takes the
`max_edge` sentinel for both offsets (yielding 0), and `GetEdgeCounts`
writes a zero scanned-edges entry for every negative or out-of-range
frontier entry instead of reading `row_offsets` out of bounds. -/
theorem getNeighborListLength_safe :
    (∀ (row_offsets : List Int) (v max_vertex max_edge : Int), 0 ≤ v →
      max_vertex ≤ (row_offsets.length : Int) →
      ∃ n, GetNeighborListLength row_offsets v max_vertex max_edge = some n ∧ 0 ≤ n)
    ∧ (∀ (row_offsets : List Int) (v max_vertex max_edge : Int), max_vertex ≤ v →
      GetNeighborListLength row_offsets v max_vertex max_edge = some 0)
    ∧ (∀ (row_offsets column_indices column_offsets row_indices d_queue : List Int)
        (num_elements max_vertex max_edge my_id : Int) (adv : AdvanceType),
        adv = .V2V ∨ adv = .V2E →
        0 ≤ my_id → my_id < num_elements →
        ¬ (my_id > num_elements ∨ my_id ≥ max_edge) →
        my_id.toNat < column_indices.length →
        my_id.toNat < d_queue.length →
        (d_queue.getD my_id.toNat 0 < 0 ∨ max_vertex ≤ d_queue.getD my_id.toNat 0) →
        GetEdgeCounts_entry row_offsets column_indices column_offsets row_indices
          d_queue num_elements max_vertex max_edge adv false false my_id
        = some (some 0)) :=
  ⟨fun ro v mv me hv hmv => getNeighborListLength_total_nonneg ro v mv me hv hmv,
   fun ro v mv me hv => getNeighborListLength_sentinel ro v mv me hv,
   fun ro ci co ri dq ne mv me mi adv hadv h0 h1 h2 h3 h4 h5 =>
     getEdgeCounts_out_of_range_writes_zero ro ci co ri dq ne mv me mi adv
       hadv h0 h1 h2 h3 h4 h5⟩

theorem getNeighborListLength_safe_witness :
    (∃ n, GetNeighborListLength [0, 2, 5] 1 2 5 = some n ∧ 0 ≤ n)
    ∧ GetNeighborListLength [0, 2, 5] 7 2 5 = some 0
    ∧ GetEdgeCounts_entry [0, 2, 5] [1, 0, 1, 0, 1] [] [] [9] 1 2 5 .V2V false false 0
      = some (some 0) :=
  ⟨getNeighborListLength_safe.1 [0, 2, 5] 1 2 5 (by decide) (by decide),
   getNeighborListLength_safe.2.1 [0, 2, 5] 7 2 5 (by decide),
   getNeighborListLength_safe.2.2 [0, 2, 5] [1, 0, 1, 0, 1] [] [] [9] 1 2 5 0 .V2V
     (Or.inl rfl) (by decide) (by decide) (by decide) (by decide) (by decide)
     (by decide)⟩

/-- Reduction operator, `gunrock::oprtr::advance::REDUCE_OP`. -/
inductive ReduceOp where
  | NONE | PLUS | MULTIPLIES | MAXIMUM | MINIMUM | BIT_OR | BIT_AND | BIT_XOR
deriving DecidableEq, Repr

/-- What `RelaxLightEdges` stores into `d_reduce_frontier` when `CondEdge`
is false (test_utils.h:1060 and 1172; the switch is identical in the
plain and the MARK_PREDECESSORS branch).  Values are the 32-bit patterns
of the stored `(Value)` casts: `(Value)INT_MIN = 0x80000000`,
`(Value)INT_MAX = 0x7fffffff`, `(Value)0xffffffff = 0xffffffff`. -/
def relaxLight_falseWrite : ReduceOp → Nat
  | .PLUS => 0
  | .MULTIPLIES => 1
  | .MAXIMUM => 0x80000000
  | .MINIMUM => 0x7fffffff
  | .BIT_OR => 0
  | .BIT_AND => 0xffffffff
  | .BIT_XOR => 0
  | _ => 0

/-- What `RelaxPartitionedEdges2` stores into `d_reduce_frontier` when
`CondEdge` is false in the `!MARK_PREDECESSORS` branch (test_utils.h:770):
the full seven-case switch. -/
def relaxPartitioned_falseWrite : ReduceOp → Nat
  | .PLUS => 0
  | .MULTIPLIES => 1
  | .MAXIMUM => 0x80000000
  | .MINIMUM => 0x7fffffff
  | .BIT_OR => 0
  | .BIT_AND => 0xffffffff
  | .BIT_XOR => 0
  | _ => 0

/-- What `RelaxPartitionedEdges2` stores into `d_reduce_frontier` when
`CondEdge` is false in the `MARK_PREDECESSORS` branch (test_utils.h:848):
this switch only has the PLUS / MULTIPLIES / MAXIMUM / MINIMUM cases, so
the three bitwise operators fall into `default` and store `(Value)0`. -/
def relaxPartitionedMark_falseWrite : ReduceOp → Nat
  | .PLUS => 0
  | .MULTIPLIES => 1
  | .MAXIMUM => 0x80000000
  | .MINIMUM => 0x7fffffff
  | _ => 0

/-- The identity element each operator should get per the spec: 0 for sum,
1 for product, INT_MIN for max, INT_MAX for min, 0 for bitwise-or,
all-ones for bitwise-and, 0 for bitwise-xor (32-bit patterns). -/
def reduceIdentity : ReduceOp → Nat
  | .PLUS => 0
  | .MULTIPLIES => 1
  | .MAXIMUM => 0x80000000
  | .MINIMUM => 0x7fffffff
  | .BIT_OR => 0
  | .BIT_AND => 0xffffffff
  | .BIT_XOR => 0
  | .NONE => 0

/-- C4: the light path and the partitioned `!MARK_PREDECESSORS` path write
each operator's identity on a false predicate, but the partitioned
`MARK_PREDECESSORS` path's switch omits the bitwise cases, so BIT_AND
falls to `default` and writes 0 instead of the all-ones identity
0xffffffff (BIT_OR and BIT_XOR coincidentally still get their identity 0). -/
theorem advance_reduce_identity_bitand_bug :
    relaxPartitionedMark_falseWrite .BIT_AND = 0
    ∧ reduceIdentity .BIT_AND = 0xffffffff
    ∧ relaxLight_falseWrite .BIT_AND = 0xffffffff
    ∧ relaxPartitioned_falseWrite .BIT_AND = 0xffffffff
    ∧ relaxLight_falseWrite .PLUS = reduceIdentity .PLUS
    ∧ relaxLight_falseWrite .MULTIPLIES = reduceIdentity .MULTIPLIES
    ∧ relaxLight_falseWrite .MAXIMUM = reduceIdentity .MAXIMUM
    ∧ relaxLight_falseWrite .MINIMUM = reduceIdentity .MINIMUM
    ∧ relaxLight_falseWrite .BIT_OR = reduceIdentity .BIT_OR
    ∧ relaxLight_falseWrite .BIT_XOR = reduceIdentity .BIT_XOR
    ∧ relaxPartitioned_falseWrite .PLUS = reduceIdentity .PLUS
    ∧ relaxPartitioned_falseWrite .MULTIPLIES = reduceIdentity .MULTIPLIES
    ∧ relaxPartitioned_falseWrite .MAXIMUM = reduceIdentity .MAXIMUM
    ∧ relaxPartitioned_falseWrite .MINIMUM = reduceIdentity .MINIMUM
    ∧ relaxPartitioned_falseWrite .BIT_OR = reduceIdentity .BIT_OR
    ∧ relaxPartitioned_falseWrite .BIT_XOR = reduceIdentity .BIT_XOR
    ∧ relaxPartitionedMark_falseWrite .PLUS = reduceIdentity .PLUS
    ∧ relaxPartitionedMark_falseWrite .MULTIPLIES = reduceIdentity .MULTIPLIES
    ∧ relaxPartitionedMark_falseWrite .MAXIMUM = reduceIdentity .MAXIMUM
    ∧ relaxPartitionedMark_falseWrite .MINIMUM = reduceIdentity .MINIMUM
    ∧ relaxPartitionedMark_falseWrite .BIT_OR = reduceIdentity .BIT_OR
    ∧ relaxPartitionedMark_falseWrite .BIT_XOR = reduceIdentity .BIT_XOR
    ∧ relaxPartitionedMark_falseWrite .BIT_AND ≠ reduceIdentity .BIT_AND := by
  decide

/-- Per-device connected-components state read by `CCIteration` control
functions.  `retval` is `enactor_stats[g].retval` over the
`num_gpus * num_gpus` (device, peer) stats slots, 0 meaning `cudaSuccess`;
`turn` counts completed outer turns (only ever incremented from 0, so a
natural number); `inLength gpu i peer` and `outLength gpu peer` are the
pending transfer lengths `data_slice[gpu]->in_length[i][peer]` and
`data_slice[gpu]->out_length[peer]` (sizes, hence naturals). -/
structure CCSlices where
  numGpus : Nat
  retval : Nat → Nat
  turn : Nat → Nat
  inLength : Nat → Nat → Nat → Nat
  outLength : Nat → Nat → Nat

/-- Embedding of `CCIteration::Stop_Condition` (cc enactor, part_002:1073):
any non-success retval stops; `num_gpus < 2` stops as soon as
`data_slice[0]->turn > 0`; otherwise every device must have `turn != 0`,
every `in_length[i][peer]` for `peer >= 1` must be 0 and every
`out_length[peer]` (peer from 0) must be 0. -/
def ccStopCondition (s : CCSlices) : Bool :=
  if ∃ gpu ∈ List.range (s.numGpus * s.numGpus), s.retval gpu ≠ 0 then true
  else if s.numGpus < 2 ∧ 0 < s.turn 0 then true
  else if ∃ gpu ∈ List.range s.numGpus, s.turn gpu = 0 then false
  else if ∃ gpu ∈ List.range s.numGpus, ∃ peer ∈ (List.range s.numGpus).drop 1,
            ∃ i ∈ List.range 2, s.inLength gpu i peer ≠ 0 then false
  else if ∃ gpu ∈ List.range s.numGpus, ∃ peer ∈ List.range s.numGpus,
            s.outLength gpu peer ≠ 0 then false
  else true

/-- The spec's generic stopping predicate, stated from its words: all
devices report zero queued work (every device has completed at least one
turn) and zero pending cross-device in/out transfer lengths (`out_length`
includes the peer-0 slot, which flags work the device queued for itself). -/
def ccStopGeneric (s : CCSlices) : Bool :=
  decide ((∀ gpu ∈ List.range s.numGpus, 0 < s.turn gpu)
    ∧ (∀ gpu ∈ List.range s.numGpus, ∀ peer ∈ (List.range s.numGpus).drop 1,
        ∀ i ∈ List.range 2, s.inLength gpu i peer = 0)
    ∧ (∀ gpu ∈ List.range s.numGpus, ∀ peer ∈ List.range s.numGpus,
        s.outLength gpu peer = 0))

/-- A single-device state with one completed turn but a nonzero
`out_length[0]` (work queued for itself). -/
def ccSingleGpuState : CCSlices where
  numGpus := 1
  retval := fun _ => 0
  turn := fun _ => 1
  inLength := fun _ _ _ => 0
  outLength := fun _ _ => 1

/-- C1 counterexample: with one device, one completed turn and a nonzero
pending out-length, `Stop_Condition`'s `num_gpus < 2` special case stops
although the generic all-transfer-lengths-zero predicate does not. -/
theorem ccStopCondition_singleGpu_not_generic :
    ccStopCondition ccSingleGpuState = true
    ∧ ccStopGeneric ccSingleGpuState = false := by
  decide

/-- C1 (amended): absent device faults the code's `Stop_Condition` agrees
with the generic predicate whenever `num_gpus ≥ 2`, and for
`num_gpus = 1` it agrees exactly under the extra assumption that
`out_length[0]` is zero; it is not equivalent for every state when
`num_gpus = 1` (see the counterexample). -/
theorem ccStopCondition_equiv_generic (s : CCSlices)
    (hfault : ∀ g, g < s.numGpus * s.numGpus → s.retval g = 0) :
    (2 ≤ s.numGpus → ccStopCondition s = ccStopGeneric s)
    ∧ (s.numGpus = 1 → s.outLength 0 0 = 0 →
        ccStopCondition s = ccStopGeneric s) := by
  have hfr : ¬ ∃ gpu ∈ List.range (s.numGpus * s.numGpus), s.retval gpu ≠ 0 := by
    rintro ⟨g, hg, hne⟩
    exact hne (hfault g (List.mem_range.mp hg))
  constructor
  · intro h2
    unfold ccStopCondition ccStopGeneric
    rw [if_neg hfr, if_neg (by omega)]
    by_cases hA : ∃ gpu ∈ List.range s.numGpus, s.turn gpu = 0
    · rw [if_pos hA]
      obtain ⟨g, hg, hz⟩ := hA
      have hnA : ¬ (∀ gpu ∈ List.range s.numGpus, 0 < s.turn gpu) := by
        intro hall
        exact absurd (hall g hg) (by omega)
      exact (decide_eq_false (fun h => hnA h.1)).symm
    · rw [if_neg hA]
      by_cases hB : ∃ gpu ∈ List.range s.numGpus,
          ∃ peer ∈ (List.range s.numGpus).drop 1,
          ∃ i ∈ List.range 2, s.inLength gpu i peer ≠ 0
      · rw [if_pos hB]
        obtain ⟨g, hg, p, hp, i, hi, hne⟩ := hB
        have hnB : ¬ (∀ gpu ∈ List.range s.numGpus,
            ∀ peer ∈ (List.range s.numGpus).drop 1,
            ∀ i ∈ List.range 2, s.inLength gpu i peer = 0) := by
          intro hall
          exact hne (hall g hg p hp i hi)
        exact (decide_eq_false (fun h => hnB h.2.1)).symm
      · rw [if_neg hB]
        by_cases hC : ∃ gpu ∈ List.range s.numGpus,
            ∃ peer ∈ List.range s.numGpus, s.outLength gpu peer ≠ 0
        · rw [if_pos hC]
          obtain ⟨g, hg, p, hp, hne⟩ := hC
          have hnC : ¬ (∀ gpu ∈ List.range s.numGpus,
              ∀ peer ∈ List.range s.numGpus, s.outLength gpu peer = 0) := by
            intro hall
            exact hne (hall g hg p hp)
          exact (decide_eq_false (fun h => hnC h.2.2)).symm
        · rw [if_neg hC]
          push_neg at hA hB hC
          have hA' : ∀ gpu ∈ List.range s.numGpus, 0 < s.turn gpu := by
            intro g hg
            exact Nat.pos_of_ne_zero (hA g hg)
          exact (decide_eq_true ⟨hA', hB, hC⟩).symm
  · intro h1 hout
    unfold ccStopCondition ccStopGeneric
    rw [if_neg hfr]
    by_cases ht : 0 < s.turn 0
    · rw [if_pos ⟨by omega, ht⟩]
      have hall : (∀ gpu ∈ List.range s.numGpus, 0 < s.turn gpu)
          ∧ (∀ gpu ∈ List.range s.numGpus, ∀ peer ∈ (List.range s.numGpus).drop 1,
              ∀ i ∈ List.range 2, s.inLength gpu i peer = 0)
          ∧ (∀ gpu ∈ List.range s.numGpus, ∀ peer ∈ List.range s.numGpus,
              s.outLength gpu peer = 0) := by
        refine ⟨?_, ?_, ?_⟩ <;> intro g hg
        · have : g = 0 := by have := List.mem_range.mp hg; omega
          subst this; exact ht
        · intro p hp
          rw [h1] at hp
          simp at hp
        · intro p hp
          have hg0 : g = 0 := by have := List.mem_range.mp hg; omega
          have hp0 : p = 0 := by have := List.mem_range.mp hp; omega
          subst hg0; subst hp0
          exact hout
      exact (decide_eq_true hall).symm
    · rw [if_neg (by omega)]
      have hA : ∃ gpu ∈ List.range s.numGpus, s.turn gpu = 0 :=
        ⟨0, List.mem_range.mpr (by omega), by omega⟩
      rw [if_pos hA]
      have hnA : ¬ (∀ gpu ∈ List.range s.numGpus, 0 < s.turn gpu) := by
        intro hall
        exact absurd (hall 0 (List.mem_range.mpr (by omega))) (by omega)
      exact (decide_eq_false (fun h => hnA h.1)).symm

theorem ccStopCondition_equiv_generic_witness :
    (∀ g, g < 2 * 2 →
      (fun _ : Nat => 0) g = 0)
    ∧ ccStopCondition
        { numGpus := 2, retval := fun _ => 0, turn := fun _ => 1,
          inLength := fun _ _ _ => 0, outLength := fun _ _ => 0 }
      = ccStopGeneric
        { numGpus := 2, retval := fun _ => 0, turn := fun _ => 1,
          inLength := fun _ _ _ => 0, outLength := fun _ _ => 0 } :=
  ⟨fun _ _ => rfl,
   (ccStopCondition_equiv_generic
     { numGpus := 2, retval := fun _ => 0, turn := fun _ => 1,
       inLength := fun _ _ _ => 0, outLength := fun _ _ => 0 }
     (fun _ _ => rfl)).1 (by decide)⟩

/-- Capacities of the four frontier double-buffer slots
(`keys[0], keys[1], values[0], values[1]`). -/
structure DoubleBufferCap where
  keys0 : Nat
  keys1 : Nat
  values0 : Nat
  values1 : Nat
deriving DecidableEq, Repr

/-- Modelled from the spec: `Check_Size` of enactor_base.cuh (not under
src/), the spec's `EnsureCapacity(n)`: grows a buffer so its capacity is
at least the requested minimum; never shrinks. -/
def checkSize (request cap : Nat) : Nat := max cap request

/-- Capacity of the keys slot selected by `slot` (`false` = slot 0). -/
def keyCap (q : DoubleBufferCap) (slot : Bool) : Nat :=
  if slot then q.keys1 else q.keys0

/-- Capacity of the values slot selected by `slot`. -/
def valueCap (q : DoubleBufferCap) (slot : Bool) : Nat :=
  if slot then q.values1 else q.values0

def growKeySlot (q : DoubleBufferCap) (slot : Bool) (n : Nat) : DoubleBufferCap :=
  if slot then { q with keys1 := checkSize n q.keys1 }
  else { q with keys0 := checkSize n q.keys0 }

def growValueSlot (q : DoubleBufferCap) (slot : Bool) (n : Nat) : DoubleBufferCap :=
  if slot then { q with values1 := checkSize n q.values1 }
  else { q with values0 := checkSize n q.values0 }

/-- Embedding of `Forward_Iteration::Check_Queue_Size` (bc enactor,
part_003:900): grow `keys[selector^1]` to the requested output length,
`keys[selector]` to `nodes + 2`, and the same for the values slots when
`USE_DOUBLE_BUFFER`. -/
def bcForwardCheckQueueSize (useDoubleBuffer : Bool) (requestLength nodes : Nat)
    (selector : Bool) (q : DoubleBufferCap) : DoubleBufferCap :=
  let q1 := growKeySlot q (!selector) requestLength
  let q2 := growKeySlot q1 selector (nodes + 2)
  if useDoubleBuffer then
    growValueSlot (growValueSlot q2 (!selector) requestLength) selector (nodes + 2)
  else q2

/-- Embedding of `CCIteration::Check_Queue_Size` (cc enactor,
part_002:1051): the function body is empty, so the queue capacities are
left untouched. -/
def ccCheckQueueSize (requestLength nodes : Nat) (selector : Bool)
    (q : DoubleBufferCap) : DoubleBufferCap := q

/-- Embedding of `Backward_Iteration::Check_Queue_Size` (bc enactor,
part_003:1308): the body is a bare `return;` (the growth code is commented
out), so the queue capacities are left untouched. -/
def bcBackwardCheckQueueSize (requestLength nodes : Nat) (selector : Bool)
    (q : DoubleBufferCap) : DoubleBufferCap := q

/-- C5 counterexample: with zero initial capacities and a request of 5,
the CC and BC-backward `Check_Queue_Size` leave the output slot
(`selector^1 = 1`) at capacity 0 < 5, contradicting the claim that every
iteration structure grows it before the launch. -/
theorem checkQueueSize_noop_counterexample :
    (ccCheckQueueSize 5 3 false ⟨0, 0, 0, 0⟩).keys1 = 0
    ∧ (bcBackwardCheckQueueSize 5 3 false ⟨0, 0, 0, 0⟩).keys1 = 0
    ∧ (0 : Nat) < 5 := by
  exact ⟨rfl, rfl, by decide⟩

/-- C5 (amended): only BC's forward iteration `Check_Queue_Size` grows the
output slot `selector^1` to at least the requested length and the input
slot `selector` to at least `nodes + 2` (also for the values channel when
double-buffered, and never shrinking any slot); the CC and BC-backward
versions are no-ops that leave every capacity unchanged. -/
theorem checkQueueSize_behavior :
    (∀ (useDB : Bool) (request nodes : Nat) (selector : Bool) (q : DoubleBufferCap),
      request ≤ keyCap (bcForwardCheckQueueSize useDB request nodes selector q) (!selector)
      ∧ nodes + 2 ≤ keyCap (bcForwardCheckQueueSize useDB request nodes selector q) selector
      ∧ (useDB = true →
          request ≤ valueCap (bcForwardCheckQueueSize useDB request nodes selector q) (!selector)
          ∧ nodes + 2 ≤ valueCap (bcForwardCheckQueueSize useDB request nodes selector q) selector)
      ∧ (∀ slot : Bool,
          keyCap q slot ≤ keyCap (bcForwardCheckQueueSize useDB request nodes selector q) slot
          ∧ valueCap q slot ≤ valueCap (bcForwardCheckQueueSize useDB request nodes selector q) slot))
    ∧ (∀ (request nodes : Nat) (selector : Bool) (q : DoubleBufferCap),
        ccCheckQueueSize request nodes selector q = q)
    ∧ (∀ (request nodes : Nat) (selector : Bool) (q : DoubleBufferCap),
        bcBackwardCheckQueueSize request nodes selector q = q) := by
  refine ⟨?_, fun _ _ _ _ => rfl, fun _ _ _ _ => rfl⟩
  intro useDB request nodes selector q
  cases useDB <;> cases selector <;>
    simp [bcForwardCheckQueueSize, growKeySlot, growValueSlot, keyCap, valueCap,
      checkSize] <;>
    refine ⟨by omega, by omega, ?_⟩ <;>
    intro slot <;> cases slot <;> simp <;> omega

theorem checkQueueSize_behavior_witness :
    (5 ≤ keyCap (bcForwardCheckQueueSize true 5 3 false ⟨0, 0, 0, 0⟩) (!false))
    ∧ (5 ≤ valueCap (bcForwardCheckQueueSize true 5 3 false ⟨0, 0, 0, 0⟩) (!false))
    ∧ ccCheckQueueSize 5 3 false ⟨1, 2, 3, 4⟩ = ⟨1, 2, 3, 4⟩ :=
  ⟨(checkQueueSize_behavior.1 true 5 3 false ⟨0, 0, 0, 0⟩).1,
   ((checkQueueSize_behavior.1 true 5 3 false ⟨0, 0, 0, 0⟩).2.2.1 rfl).1,
   checkQueueSize_behavior.2.1 5 3 false ⟨1, 2, 3, 4⟩⟩

/-- Per-device betweenness-centrality backward state: `retval` over the
`num_gpus * num_gpus` stats slots (0 = `cudaSuccess`), the per-slot
`iteration` counters, and the result of `All_Done`.  `allDone` stands for
`All_Done` of enactor_base.cuh (not under src/): per the spec it is the
generic "all devices report zero queued work and zero pending cross-device
in/out transfers" check. -/
structure BCSlices where
  numGpus : Nat
  retval : Nat → Nat
  iteration : Nat → Int
  allDone : Bool

/-- Embedding of `Backward_Iteration::Stop_Condition` (bc enactor,
part_003:1275): any non-success retval stops; otherwise stop exactly when
`All_Done` holds and no stats slot still has `iteration > 1`. -/
def bcBackwardStopCondition (s : BCSlices) : Bool :=
  if ∃ gpu ∈ List.range (s.numGpus * s.numGpus), s.retval gpu ≠ 0 then true
  else if s.allDone then
    (if ∃ gpu ∈ List.range (s.numGpus * s.numGpus), 1 < s.iteration gpu then false
     else true)
  else false

/-- One element of the `EnactCC` status sweep (part_002:1466): scan the
per-device stats slots in order and keep the first non-success status. -/
def firstError (retval : Nat → Nat) : List Nat → Nat
  | [] => 0
  | g :: rest => if retval g ≠ 0 then retval g else firstError retval rest

/-- Embedding of `CCEnactor::EnactCC`'s result aggregation: the first
non-success `enactor_stats[gpu].retval` over `gpu < num_gpus`, else
success (0). -/
def enactCCRetval (numGpus : Nat) (retval : Nat → Nat) : Nat :=
  firstError retval (List.range numGpus)

/-- Modelled from the spec: the per-device iteration loop of
enactor_base.cuh (not under src/).  Each round, if the device's recorded
status is already a failure the loop launches nothing further (a failure
"is NOT silently retried"); otherwise it launches the round's kernels and
records their status into `EnactorStats.retval`.  `kernel i` is the status
of the launch at iteration `i` (0 = success). -/
structure DeviceLoopState where
  iteration : Nat
  retval : Nat
deriving DecidableEq, Repr

def deviceLoopStep (kernel : Nat → Nat) (s : DeviceLoopState) : DeviceLoopState :=
  if s.retval ≠ 0 then s
  else { iteration := s.iteration + 1, retval := kernel s.iteration }

def runDeviceLoop (kernel : Nat → Nat) (n : Nat) : DeviceLoopState :=
  (deviceLoopStep kernel)^[n] ⟨0, 0⟩

theorem runDeviceLoop_ok (kernel : Nat → Nat) (n : Nat)
    (h : ∀ j, j < n → kernel j = 0) : runDeviceLoop kernel n = ⟨n, 0⟩ := by
  induction n with
  | zero => rfl
  | succ m ih =>
    have hm : runDeviceLoop kernel m = ⟨m, 0⟩ :=
      ih (fun j hj => h j (by omega))
    unfold runDeviceLoop at hm ⊢
    rw [Function.iterate_succ_apply', hm]
    unfold deviceLoopStep
    simp [h m (by omega)]

theorem runDeviceLoop_failure_sticks (kernel : Nat → Nat) (k e : Nat)
    (he : e ≠ 0) (hok : ∀ j, j < k → kernel j = 0) (hk : kernel k = e) :
    ∀ m, k < m → (runDeviceLoop kernel m).retval = e := by
  have hbase : runDeviceLoop kernel (k + 1) = ⟨k + 1, e⟩ := by
    unfold runDeviceLoop
    rw [Function.iterate_succ_apply']
    have := runDeviceLoop_ok kernel k hok
    unfold runDeviceLoop at this
    rw [this]
    unfold deviceLoopStep
    simp [hk]
  intro m hm
  obtain ⟨d, rfl⟩ : ∃ d, m = (k + 1) + d := ⟨m - (k + 1), by omega⟩
  induction d with
  | zero => rw [hbase]
  | succ d2 ih =>
    have hd2 : (runDeviceLoop kernel (k + 1 + d2)).retval = e := ih (by omega)
    have hstep : runDeviceLoop kernel (k + 1 + (d2 + 1))
        = deviceLoopStep kernel (runDeviceLoop kernel (k + 1 + d2)) := by
      unfold runDeviceLoop
      rw [show k + 1 + (d2 + 1) = (k + 1 + d2) + 1 by omega,
          Function.iterate_succ_apply']
    rw [hstep]
    unfold deviceLoopStep
    rw [if_pos (by rw [hd2]; exact he)]
    exact hd2

theorem firstError_range' (retval : Nat → Nat) (g0 : Nat) (hg : retval g0 ≠ 0) :
    ∀ a len, a ≤ g0 → g0 < a + len →
    (∀ g, a ≤ g → g < g0 → retval g = 0) →
    firstError retval (List.range' a len) = retval g0 := by
  intro a len
  induction len generalizing a with
  | zero => intro h1 h2; omega
  | succ m ih =>
    intro h1 h2 hz
    rw [List.range'_succ]
    unfold firstError
    by_cases ha : a = g0
    · subst ha
      rw [if_pos hg]
    · have : retval a = 0 := hz a (le_refl a) (by omega)
      rw [if_neg (by simp [this])]
      exact ih (a + 1) (by omega) (by omega) (fun g hga hgl => hz g (by omega) hgl)

/-- C6: a kernel failure is recorded into the device's
`EnactorStats.retval` and the loop never relaunches (the recorded status
never changes afterwards); any stats slot's non-success retval makes both
the CC and the BC-backward `Stop_Condition` return true; and `EnactCC`
returns the first non-success per-device status. -/
theorem kernel_failure_aborts_run :
    (∀ s : CCSlices, ∀ g, g < s.numGpus * s.numGpus → s.retval g ≠ 0 →
      ccStopCondition s = true)
    ∧ (∀ s : BCSlices, ∀ g, g < s.numGpus * s.numGpus → s.retval g ≠ 0 →
      bcBackwardStopCondition s = true)
    ∧ (∀ (kernel : Nat → Nat) (k e : Nat), e ≠ 0 →
        (∀ j, j < k → kernel j = 0) → kernel k = e →
        ∀ m, k < m → (runDeviceLoop kernel m).retval = e)
    ∧ (∀ (numGpus : Nat) (retval : Nat → Nat) (g0 : Nat), g0 < numGpus →
        retval g0 ≠ 0 → (∀ g, g < g0 → retval g = 0) →
        enactCCRetval numGpus retval = retval g0) := by
  refine ⟨?_, ?_, ?_, ?_⟩
  · intro s g hg hne
    unfold ccStopCondition
    rw [if_pos ⟨g, List.mem_range.mpr hg, hne⟩]
  · intro s g hg hne
    unfold bcBackwardStopCondition
    rw [if_pos ⟨g, List.mem_range.mpr hg, hne⟩]
  · exact fun kernel k e he hok hk m hm =>
      runDeviceLoop_failure_sticks kernel k e he hok hk m hm
  · intro n retval g0 hlt hne hz
    unfold enactCCRetval
    rw [List.range_eq_range']
    exact firstError_range' retval g0 hne 0 n (by omega) (by omega)
      (fun g _ hgl => hz g hgl)

theorem kernel_failure_aborts_run_witness :
    ccStopCondition
      { numGpus := 1, retval := fun _ => 77, turn := fun _ => 0,
        inLength := fun _ _ _ => 0, outLength := fun _ _ => 0 } = true
    ∧ (runDeviceLoop (fun i => if i = 2 then 77 else 0) 5).retval = 77
    ∧ enactCCRetval 2 (fun g => if g = 0 then 0 else 77) = 77 :=
  ⟨kernel_failure_aborts_run.1
     { numGpus := 1, retval := fun _ => 77, turn := fun _ => 0,
       inLength := fun _ _ _ => 0, outLength := fun _ _ => 0 }
     0 (by decide) (by decide),
   kernel_failure_aborts_run.2.2.1 (fun i => if i = 2 then 77 else 0) 2 77
     (by decide) (by intro j hj; simp; omega) (by decide) 5 (by decide),
   kernel_failure_aborts_run.2.2.2 2 (fun g => if g = 0 then 0 else 77) 1
     (by decide) (by decide) (by intro g hg; simp; omega)⟩

/-- Embedding of the per-message combine in `Expand_Incoming_BothWay`
(part_002:492): `if (incoming < org) org = incoming`, i.e. the stored
component id is replaced exactly when the incoming id is smaller. -/
def expandIncomingCombine (org incoming : Int) : Int :=
  if incoming < org then incoming else org

/-- The stored value after a sequence of incoming messages is processed in
order. -/
def expandIncomingRun (org : Int) (msgs : List Int) : Int :=
  msgs.foldl expandIncomingCombine org

theorem expandIncomingCombine_eq_min (a b : Int) :
    expandIncomingCombine a b = min a b := by
  unfold expandIncomingCombine
  rcases lt_trichotomy b a with h | h | h
  · rw [if_pos h, min_eq_right (le_of_lt h)]
  · subst h; simp
  · rw [if_neg (by omega), min_eq_left (le_of_lt h)]

theorem expandIncomingRun_eq_foldl_min (org : Int) (l : List Int) :
    expandIncomingRun org l = l.foldl min org := by
  unfold expandIncomingRun
  induction l generalizing org with
  | nil => rfl
  | cons x rest ih =>
    simp only [List.foldl_cons, expandIncomingCombine_eq_min]
    exact ih (min org x)

theorem foldl_min_perm (org : Int) {l l' : List Int} (h : l.Perm l') :
    l.foldl min org = l'.foldl min org := by
  induction h generalizing org with
  | nil => rfl
  | cons x h2 ih => simp only [List.foldl_cons]; exact ih (min org x)
  | swap x y l2 =>
    simp only [List.foldl_cons]
    rw [min_assoc, min_comm y x, ← min_assoc]
  | trans h1 h2 ih1 ih2 => exact (ih1 org).trans (ih2 org)

/-- C8: the Expand_Incoming combine takes the minimum: the stored id is
replaced exactly when the incoming id is smaller; the combine is
commutative and idempotent; the stored value after any message sequence is
the minimum of the original value and all incoming values, independent of
receipt order. -/
theorem expandIncoming_min_combine :
    (∀ a b : Int, expandIncomingCombine a b = min a b)
    ∧ (∀ a b : Int, expandIncomingCombine a b ≠ a ↔ b < a)
    ∧ (∀ a b : Int, expandIncomingCombine a b = expandIncomingCombine b a)
    ∧ (∀ a : Int, expandIncomingCombine a a = a)
    ∧ (∀ (org : Int) (l : List Int), expandIncomingRun org l = l.foldl min org)
    ∧ (∀ (org : Int) (l l' : List Int), l.Perm l' →
        expandIncomingRun org l = expandIncomingRun org l') := by
  refine ⟨expandIncomingCombine_eq_min, ?_, ?_, ?_,
    expandIncomingRun_eq_foldl_min, ?_⟩
  · intro a b
    rw [expandIncomingCombine_eq_min]
    constructor
    · intro hne
      rcases le_or_lt a b with h | h
      · exact absurd (min_eq_left h) hne
      · exact h
    · intro hlt
      rw [min_eq_right (le_of_lt hlt)]
      omega
  · intro a b
    rw [expandIncomingCombine_eq_min, expandIncomingCombine_eq_min, min_comm]
  · intro a
    rw [expandIncomingCombine_eq_min, min_self]
  · intro org l l' h
    rw [expandIncomingRun_eq_foldl_min, expandIncomingRun_eq_foldl_min]
    exact foldl_min_perm org h

theorem expandIncoming_min_combine_witness :
    expandIncomingRun 4 [7, 2, 9] = expandIncomingRun 4 [9, 7, 2]
    ∧ expandIncomingRun 4 [7, 2, 9] = 2 :=
  ⟨expandIncoming_min_combine.2.2.2.2.2 4 [7, 2, 9] [9, 7, 2]
     (by decide),
   by decide⟩

/-- Modelled from the spec: `CCProblem::Extract` and
`CCProblem::num_components` (cc_problem.cuh, not under src/): `Extract`
copies the per-vertex component ids to the host array
`h_component_ids`, and `num_components` is the number of distinct
component ids the problem computed. -/
def numComponentsOf (labels : List Int) : Nat := labels.dedup.length

/-- A pointer to a function-frame local: the stack slot (depth index)
at which the local was allocated. -/
structure StackAddr where
  depth : Nat
deriving DecidableEq, Repr

/-- The call stack: `depth` is the number of live frames (one local slot
per frame); `store` holds the bytes of every slot ever written.  Bytes
persist after a frame is popped, but a slot at or above `depth` belongs
to no live frame. -/
structure Stack where
  depth : Nat
  store : Nat → Int

/-- Dereference a pointer to a frame local: defined only while the
frame is live; a read through a popped frame is a dangling dereference
(modelled as none). -/
def stackRead (s : Stack) (a : StackAddr) : Option Int :=
  if a.depth < s.depth then some (s.store a.depth) else none

/-- The output-struct fields `runCC` fills (part_002:224-226):
`output->aggregation` receives `(unsigned int*)&num_components`, the
ADDRESS of a `runCC` frame local; `output->node_value1` receives
`h_component_ids`, which is heap-allocated (`new VertexId[graph->nodes]`)
and hence carried by value here. -/
structure GRGraphOut where
  aggregation : StackAddr
  nodeValue1 : List Int
deriving DecidableEq, Repr

/-- Embedding of `runCC` (part_002:145-231) called on stack `s`: its
frame is pushed at slot `s.depth`, the local
`unsigned int num_components = problem->num_components` is written into
that slot, `output->aggregation` is set to the local's address and
`output->node_value1` to the extracted component ids; on return the
frame is popped (the slot's bytes remain in `store` but the slot is no
longer live). -/
def runCC (labels : List Int) (s : Stack) : GRGraphOut × Stack :=
  ({ aggregation := { depth := s.depth }, nodeValue1 := labels },
   { depth := s.depth,
     store := fun i =>
       if i = s.depth then (numComponentsOf labels : Int) else s.store i })

/-- Embedding of the `cc` entry point (part_002:373-404): run CC (through
`gunrock_cc`), memcpy `num_nodes` component ids from `node_value1` into
`component[]`, then `return *num_components` — a dereference of
`grapho->aggregation` performed only after `runCC`'s frame is dead. -/
def ccEntry (labels : List Int) (numNodes : Nat) (s : Stack) :
    List Int × Option Int :=
  let r := runCC labels s
  (r.1.nodeValue1.take numNodes, stackRead r.2 r.1.aggregation)

/-- The claim's words for `cc`: fill `component[]` with one component id
per node and return the number of distinct component ids. -/
def ccEntryClaimed (labels : List Int) (numNodes : Nat) :
    List Int × Option Int :=
  (labels.take numNodes, some (numComponentsOf labels : Int))

/-- C9: `runCC` does compute the number of distinct component ids — the
value left in its frame slot is `num_components = labels.dedup.length =
labels.toFinset.card` — and `cc` copies one component id per node into
`component[]`; but `runCC` exposes the count by storing the address of
its own stack local in `output->aggregation` (part_002:224-225), and
`cc` dereferences that pointer only after `runCC` has returned
(part_002:397, 403), so the frame is dead at the read:
`return *num_components` is a dangling dereference and the claimed
result `some num_components` is never legitimately produced. -/
theorem cc_returns_dangling_aggregation_address (labels : List Int)
    (numNodes : Nat) (s : Stack) :
    (runCC labels s).2.store s.depth = (numComponentsOf labels : Int)
    ∧ numComponentsOf labels = labels.toFinset.card
    ∧ (runCC labels s).1.aggregation = { depth := s.depth }
    ∧ (runCC labels s).2.depth = s.depth
    ∧ stackRead (runCC labels s).2 (runCC labels s).1.aggregation = none
    ∧ (ccEntry labels numNodes s).1 = labels.take numNodes
    ∧ (ccEntry labels numNodes s).2 = none
    ∧ (ccEntryClaimed labels numNodes).2
        = some (numComponentsOf labels : Int) := by
  refine ⟨?_, (List.card_toFinset labels).symm, rfl, rfl, ?_, rfl, ?_, rfl⟩
  · show (if s.depth = s.depth then (numComponentsOf labels : Int)
      else s.store s.depth) = (numComponentsOf labels : Int)
    rw [if_pos rfl]
  · show (if s.depth < s.depth then some ((runCC labels s).2.store s.depth)
      else none) = none
    rw [if_neg (lt_irrefl s.depth)]
  · show (if s.depth < s.depth then some ((runCC labels s).2.store s.depth)
      else none) = none
    rw [if_neg (lt_irrefl s.depth)]

/-- The per-device forward-traversal log of the BC enactor:
`forward_queue_offsets[peer]` (a host-side vector of cumulative offsets,
initialized to `[0]`) and the device array `forward_output[peer]`
(modelled by the written prefix). -/
structure BCLogState where
  forwardQueueOffsets : List Nat
  forwardOutput : List Int
deriving DecidableEq, Repr

/-- Write `vals` into the array `arr` at offset `off`
(`MemsetCopyVectorKernel`). -/
def writeAt (arr : List Int) (off : Nat) (vals : List Int) : List Int :=
  arr.take off ++ vals ++ arr.drop (off + vals.length)

/-- Embedding of `Forward_Iteration::FullQueue_Gather` (part_003:665): a
no-op for `iteration <= 0`; otherwise copy the current frontier contents
into `forward_output` at the last logged cumulative offset and push the
new cumulative offset `queue_length + cur_offset`. -/
def bcForwardGather (iteration : Int) (frontier : List Int)
    (s : BCLogState) : BCLogState :=
  if iteration ≤ 0 then s
  else
    let curOffset := s.forwardQueueOffsets.getLast?.getD 0
    { forwardQueueOffsets := s.forwardQueueOffsets ++ [frontier.length + curOffset],
      forwardOutput := writeAt s.forwardOutput curOffset frontier }

/-- Embedding of `Backward_Iteration::FullQueue_Gather` (part_003:984):
pop the last logged offset (`cur_pos`), read the previous one (`pre_pos`),
and when `iteration > 0` and the recorded frontier is nonempty re-issue
its `cur_pos - pre_pos` recorded elements as the input queue, else issue
length 0.  Returns the new state and the re-issued queue. -/
def bcBackwardGather (iteration : Int) (s : BCLogState) :
    BCLogState × List Int :=
  let curPos := s.forwardQueueOffsets.getLast?.getD 0
  let rest := s.forwardQueueOffsets.dropLast
  let prePos := rest.getLast?.getD 0
  if 0 < iteration ∧ 0 < curPos - prePos then
    ({ s with forwardQueueOffsets := rest },
     (s.forwardOutput.drop prePos).take (curPos - prePos))
  else ({ s with forwardQueueOffsets := rest }, [])

/-- Embedding of `Backward_Iteration::Iteration_Change` (part_003:1262):
`iterations--`. -/
def bcBackwardIterationChange (iterations : Int) : Int := iterations - 1

/-- Total length of a list of frontiers. -/
def sumLen (fs : List (List Int)) : Nat := (fs.map List.length).sum

/-- Cumulative offsets the forward phase logs after `fs`, on top of a base
offset. -/
def offsOf (base : Nat) (fs : List (List Int)) : List Nat :=
  (List.range fs.length).map (fun i => base + sumLen (fs.take (i + 1)))

/-- The forward phase from iteration `it` on: gather each frontier in
turn, incrementing the iteration counter. -/
def bcForwardPhaseAux : Int → List (List Int) → BCLogState → BCLogState
  | _, [], s => s
  | it, f :: rest, s => bcForwardPhaseAux (it + 1) rest (bcForwardGather it f s)

/-- The forward phase over the logged iterations 1..k (iteration 0 is
skipped by the gather's own guard), starting from the reset state
`offsets = [0]`, empty output. -/
def bcForwardPhase (fs : List (List Int)) : BCLogState :=
  bcForwardPhaseAux 1 fs ⟨[0], []⟩

/-- `n` rounds of the backward phase: each round re-issues one recorded
frontier (via `bcBackwardGather`) and decrements the iteration counter
(via `bcBackwardIterationChange`); returns the final state and the
re-issued queues in order. -/
def bcBackwardPhaseAux : Int → Nat → BCLogState → BCLogState × List (List Int)
  | _, 0, s => (s, [])
  | it, n + 1, s =>
    let p := bcBackwardGather it s
    let r := bcBackwardPhaseAux (bcBackwardIterationChange it) n p.1
    (r.1, p.2 :: r.2)

theorem writeAt_append (arr : List Int) (vals : List Int) :
    writeAt arr arr.length vals = arr ++ vals := by
  unfold writeAt
  rw [List.take_length, List.drop_eq_nil_of_le (by omega), List.append_nil]

theorem sumLen_cons (f : List Int) (rest : List (List Int)) :
    sumLen (f :: rest) = f.length + sumLen rest := by
  simp [sumLen]

theorem sumLen_concat (fs : List (List Int)) (f : List Int) :
    sumLen (fs ++ [f]) = sumLen fs + f.length := by
  simp [sumLen]

theorem offsOf_cons (b : Nat) (f : List Int) (rest : List (List Int)) :
    offsOf b (f :: rest) = (b + f.length) :: offsOf (b + f.length) rest := by
  unfold offsOf
  rw [List.length_cons, List.range_succ_eq_map, List.map_cons, List.map_map]
  refine congrArg₂ List.cons ?_ ?_
  · simp [sumLen]
  · apply List.map_congr_left
    intro i _
    simp only [Function.comp_apply, Nat.succ_eq_add_one, List.take_succ_cons,
      sumLen_cons]
    omega

theorem offsOf_concat (b : Nat) (fs : List (List Int)) (f : List Int) :
    offsOf b (fs ++ [f]) = offsOf b fs ++ [b + sumLen (fs ++ [f])] := by
  unfold offsOf
  rw [List.length_append, List.length_singleton, List.range_succ, List.map_append]
  refine congrArg₂ (· ++ ·) ?_ ?_
  · apply List.map_congr_left
    intro i hi
    have hi2 : i + 1 ≤ fs.length := by
      have := List.mem_range.mp hi; omega
    rw [List.take_append_of_le_length hi2]
  · simp only [List.map_cons, List.map_nil]
    rw [List.take_of_length_le (by simp)]

theorem offsOf_getLast (b : Nat) (fs : List (List Int)) (h : fs ≠ []) :
    (offsOf b fs).getLast?.getD 0 = b + sumLen fs := by
  induction fs using List.reverseRecOn with
  | nil => exact absurd rfl h
  | append_singleton gs g ih =>
    rw [offsOf_concat, List.getLast?_concat]
    rfl

theorem bcForwardPhaseAux_spec (fs : List (List Int)) :
    ∀ (it : Int) (s : BCLogState), 1 ≤ it →
    s.forwardQueueOffsets.getLast?.getD 0 = s.forwardOutput.length →
    bcForwardPhaseAux it fs s =
      { forwardQueueOffsets :=
          s.forwardQueueOffsets ++ offsOf s.forwardOutput.length fs,
        forwardOutput := s.forwardOutput ++ fs.flatten } := by
  induction fs with
  | nil =>
    intro it s _ _
    simp [bcForwardPhaseAux, offsOf]
  | cons f rest ih =>
    intro it s hit hoff
    unfold bcForwardPhaseAux bcForwardGather
    rw [if_neg (by omega)]
    simp only [hoff]
    rw [writeAt_append]
    have hlast : ((s.forwardQueueOffsets ++ [f.length + s.forwardOutput.length]).getLast?.getD 0)
        = (s.forwardOutput ++ f).length := by
      rw [List.getLast?_concat]
      simp [Nat.add_comm]
    rw [ih (it + 1) _ (by omega) hlast]
    simp only [List.length_append]
    rw [offsOf_cons]
    simp only [List.flatten_cons]
    refine congrArg₂ BCLogState.mk ?_ ?_
    · rw [List.append_assoc, List.singleton_append]
      congr 2
      omega
    · rw [List.append_assoc]

theorem flatten_length_eq_sumLen (fs : List (List Int)) :
    fs.flatten.length = sumLen fs := by
  simp [sumLen]

theorem bcBackwardPhaseAux_spec (fs : List (List Int)) :
    ∀ (it : Int) (b0 : List Nat) (base : Nat) (out : List Int),
    (fs.length : Int) ≤ it → b0 ≠ [] →
    b0.getLast?.getD 0 = base →
    (out.drop base).take (sumLen fs) = fs.flatten →
    bcBackwardPhaseAux it fs.length ⟨b0 ++ offsOf base fs, out⟩
      = (⟨b0, out⟩, fs.reverse) := by
  induction fs using List.reverseRecOn with
  | nil =>
    intro it b0 base out _ _ _ _
    simp [bcBackwardPhaseAux, offsOf]
  | append_singleton fs' f ih =>
    intro it b0 base out hit hb0 hbase hflat
    have hit0 : 0 < it := by
      rw [List.length_append, List.length_singleton] at hit
      push_cast at hit
      omega
    have hit1 : (fs'.length : Int) ≤ it - 1 := by
      rw [List.length_append, List.length_singleton] at hit
      push_cast at hit
      omega
    have hcur : ((b0 ++ (offsOf base fs' ++ [base + sumLen (fs' ++ [f])])).getLast?.getD 0)
        = base + sumLen fs' + f.length := by
      rw [← List.append_assoc, List.getLast?_concat]
      simp only [Option.getD_some, sumLen_concat]
      omega
    have hdrop : (b0 ++ (offsOf base fs' ++ [base + sumLen (fs' ++ [f])])).dropLast
        = b0 ++ offsOf base fs' := by
      rw [← List.append_assoc, List.dropLast_concat]
    have hpre : ((b0 ++ offsOf base fs').getLast?.getD 0) = base + sumLen fs' := by
      rcases eq_or_ne fs' [] with he | hne
      · subst he
        simp only [offsOf, List.length_nil, List.range_zero, List.map_nil,
          List.append_nil, sumLen, List.sum_nil]
        rw [hbase]
        omega
      · rw [List.getLast?_append_of_ne_nil _ (by
          intro hcon
          have hlz : (offsOf base fs').length = 0 := by rw [hcon]; rfl
          rw [offsOf, List.length_map, List.length_range] at hlz
          exact hne (List.eq_nil_of_length_eq_zero hlz))]
        exact offsOf_getLast base fs' hne
    have hflatf : (out.drop base).take (sumLen fs' + f.length) = fs'.flatten ++ f := by
      rw [← sumLen_concat, hflat, List.flatten_concat]
    have hslice : (out.drop (base + sumLen fs')).take f.length = f := by
      have h1 : out.drop (base + sumLen fs') = (out.drop base).drop (sumLen fs') := by
        rw [List.drop_drop]
      have h2 : ((out.drop base).drop (sumLen fs')).take f.length
          = (((out.drop base).take (sumLen fs' + f.length)).drop (sumLen fs')) := by
        rw [List.drop_take]
        congr 1
        omega
      rw [h1, h2, hflatf]
      rw [← flatten_length_eq_sumLen fs', List.drop_left]
    have hflat' : (out.drop base).take (sumLen fs') = fs'.flatten := by
      have h5 : ((out.drop base).take (sumLen fs' + f.length)).take (sumLen fs')
          = (out.drop base).take (sumLen fs') := by
        rw [List.take_take]
        congr 1
        omega
      rw [← h5, hflatf, ← flatten_length_eq_sumLen fs', List.take_left]
    have hgather : bcBackwardGather it ⟨b0 ++ offsOf base (fs' ++ [f]), out⟩
        = (⟨b0 ++ offsOf base fs', out⟩, f) := by
      unfold bcBackwardGather
      rw [offsOf_concat]
      simp only [hcur, hdrop, hpre]
      rcases Nat.eq_zero_or_pos f.length with hf | hf
      · have hfnil : f = [] := List.eq_nil_of_length_eq_zero hf
        rw [if_neg (by rintro ⟨_, h2⟩; omega)]
        rw [hfnil]
      · rw [if_pos ⟨hit0, by omega⟩]
        rw [show base + sumLen fs' + f.length - (base + sumLen fs') = f.length by omega]
        rw [hslice]
    have hlen : (fs' ++ [f]).length = fs'.length + 1 := by simp
    rw [hlen]
    show (let p := bcBackwardGather it ⟨b0 ++ offsOf base (fs' ++ [f]), out⟩
          let r := bcBackwardPhaseAux (bcBackwardIterationChange it) fs'.length p.1
          (r.1, p.2 :: r.2))
        = (⟨b0, out⟩, (fs' ++ [f]).reverse)
    rw [hgather]
    simp only [bcBackwardIterationChange]
    rw [ih (it - 1) b0 base out hit1 hb0 hbase hflat']
    simp

theorem offsOf_split (fs1 fs2 : List (List Int)) :
    offsOf 0 (fs1 ++ fs2) = offsOf 0 fs1 ++ offsOf (sumLen fs1) fs2 := by
  induction fs2 using List.reverseRecOn with
  | nil => simp [offsOf]
  | append_singleton gs g ihg =>
    rw [← List.append_assoc, offsOf_concat, offsOf_concat, ihg, List.append_assoc]
    have hsum : 0 + sumLen ((fs1 ++ gs) ++ [g]) = sumLen fs1 + sumLen (gs ++ [g]) := by
      simp only [sumLen, List.map_append, List.sum_append, List.map_cons,
        List.map_nil, List.sum_cons, List.sum_nil]
      omega
    rw [hsum]

/-- C7: starting from the reset log state (`forward_queue_offsets = [0]`,
empty `forward_output`), the forward phase's gathers append each logged
frontier's copied contents plus the new cumulative offset; the backward
phase pops the log in reverse, re-issuing exactly the recorded frontiers
as its input queues while decrementing the iteration counter by one per
round, and the log returns to its initial single entry (is exhausted)
exactly after as many rounds as the forward phase recorded: replaying only
the last `fs2.length` of `fs1 ++ fs2` leaves the log of `fs1` in place. -/
theorem bc_forward_log_backward_replay (fs : List (List Int)) :
    (bcForwardPhase fs).forwardQueueOffsets = 0 :: offsOf 0 fs
    ∧ (bcForwardPhase fs).forwardOutput = fs.flatten
    ∧ (∀ fs1 fs2 : List (List Int), fs = fs1 ++ fs2 →
        bcBackwardPhaseAux (fs.length : Int) fs2.length (bcForwardPhase fs)
          = (⟨0 :: offsOf 0 fs1, fs.flatten⟩, fs2.reverse))
    ∧ (∀ it : Int, bcBackwardIterationChange it = it - 1) := by
  have hfwd : bcForwardPhase fs
      = { forwardQueueOffsets := [0] ++ offsOf 0 fs,
          forwardOutput := [] ++ fs.flatten } := by
    unfold bcForwardPhase
    exact bcForwardPhaseAux_spec fs 1 ⟨[0], []⟩ (by omega) (by rfl)
  refine ⟨by rw [hfwd]; rfl, by rw [hfwd]; rfl, ?_, fun _ => rfl⟩
  intro fs1 fs2 hsplit
  subst hsplit
  rw [hfwd]
  have hoffsplit : offsOf 0 (fs1 ++ fs2) = offsOf 0 fs1 ++ offsOf (sumLen fs1) fs2 :=
    offsOf_split fs1 fs2
  have happ : ([0] ++ offsOf 0 (fs1 ++ fs2) : List Nat)
      = (0 :: offsOf 0 fs1) ++ offsOf (sumLen fs1) fs2 := by
    rw [hoffsplit]
    rfl
  have hstate : BCLogState.mk ([0] ++ offsOf 0 (fs1 ++ fs2)) ([] ++ (fs1 ++ fs2).flatten)
      = BCLogState.mk ((0 :: offsOf 0 fs1) ++ offsOf (sumLen fs1) fs2)
          ((fs1 ++ fs2).flatten) := by
    rw [happ]
    rfl
  rw [hstate]
  have hlast : (0 :: offsOf 0 fs1).getLast?.getD 0 = sumLen fs1 := by
    rcases eq_or_ne fs1 [] with he | hne
    · subst he; simp [offsOf, sumLen]
    · have : (0 :: offsOf 0 fs1) = [0] ++ offsOf 0 fs1 := rfl
      rw [this, List.getLast?_append_of_ne_nil _ (by
        intro hcon
        have hlz : (offsOf 0 fs1).length = 0 := by rw [hcon]; rfl
        rw [offsOf, List.length_map, List.length_range] at hlz
        exact hne (List.eq_nil_of_length_eq_zero hlz))]
      have := offsOf_getLast 0 fs1 hne
      omega
  have hflat2 : (((fs1 ++ fs2).flatten).drop (sumLen fs1)).take (sumLen fs2)
      = fs2.flatten := by
    rw [List.flatten_append, ← flatten_length_eq_sumLen fs1, List.drop_left,
        ← flatten_length_eq_sumLen fs2, List.take_length]
  have hlen2 : ((fs2.length : Int)) ≤ ((fs1 ++ fs2).length : Int) := by
    rw [List.length_append]
    push_cast
    omega
  rw [bcBackwardPhaseAux_spec fs2 ((fs1 ++ fs2).length : Int) (0 :: offsOf 0 fs1)
      (sumLen fs1) ((fs1 ++ fs2).flatten) hlen2 (by simp) hlast hflat2]

theorem bc_forward_log_backward_replay_witness :
    bcBackwardPhaseAux (2 : Int) 2 (bcForwardPhase [[5], [7, 8]])
      = (⟨[0], [5, 7, 8]⟩, [[7, 8], [5]]) := by
  have h := (bc_forward_log_backward_replay [[5], [7, 8]]).2.2.1 [] [[5], [7, 8]] rfl
  simpa [offsOf] using h

/-- Parameters of one load-balanced advance step, as passed to
`RelaxLightEdges` / `RelaxPartitionedEdges2` (test_utils.h).  `scanned` is
`d_scanned_edges`, the inclusive prefix sum of the frontier's
neighbor-list lengths; `cond` is `Functor::CondEdge` applied to
(source-or-label, neighbor, edge id, fifth argument) — the `problem`
pointer is omitted since the functor is opaque to the kernel. -/
structure AdvParams where
  advanceType : AdvanceType
  markPred : Bool
  label : Int
  inputInverse : Bool
  outputInverse : Bool
  rowOffsets : List Nat
  colIndices : List Int
  invRowOffsets : List Nat
  invColIndices : List Int
  queue : List Int
  scanned : List Nat
  cond : Int → Int → Nat → Int → Bool

/-- The source vertex of frontier element `j`: the queue entry itself for
vertex frontiers (V2V / V2E), the edge's head `column_indices[queue[j]]`
(or the inverse graph's) for edge frontiers (E2V / E2E) — the
`s_vertices` shared-array initialization of both kernels. -/
def srcVertex (P : AdvParams) (j : Nat) : Int :=
  match P.advanceType with
  | .V2V | .V2E => P.queue.getD j 0
  | .E2V | .E2E =>
    if P.inputInverse then P.invColIndices.getD (P.queue.getD j 0).toNat 0
    else P.colIndices.getD (P.queue.getD j 0).toNat 0

/-- The edge id of frontier element `j` (`s_edge_ids`): 0 for vertex
frontiers, the queue entry (an edge id) for edge frontiers. -/
def edgeId (P : AdvParams) (j : Nat) : Int :=
  match P.advanceType with
  | .V2V | .V2E => 0
  | .E2V | .E2E => P.queue.getD j 0

/-- The row-offset array the light kernel expands over
(`output_inverse_graph` selects the inverse CSR). -/
def outOffsets (P : AdvParams) : List Nat :=
  if P.outputInverse then P.invRowOffsets else P.rowOffsets

/-- The column-index array the light kernel expands over. -/
def outIndices (P : AdvParams) : List Int :=
  if P.outputInverse then P.invColIndices else P.colIndices

/-- Neighbor-list length of frontier element `j` over the expansion CSR. -/
def lenOf (P : AdvParams) (j : Nat) : Nat :=
  (outOffsets P).getD ((srcVertex P j).toNat + 1) 0
    - (outOffsets P).getD (srcVertex P j).toNat 0

/-- Exclusive prefix sum of the frontier's neighbor-list lengths:
`exclScan P j` is the number of flat edges owned by elements before `j`. -/
def exclScan (P : AdvParams) : Nat → Nat
  | 0 => 0
  | j + 1 => exclScan P j + lenOf P j

/-- Modelled from the spec: `util::BinarySearch` (not under src/) maps a
flat edge index back to its owning frontier element by binary search over
the prefix-sum array — functionally, the least index whose inclusive
prefix sum exceeds the key (the array's length if none does). -/
def leastExceed (i : Nat) : List Nat → Nat
  | [] => 0
  | a :: rest => if i < a then 0 else leastExceed i rest + 1

/-- One edge visit of an advance kernel: the arguments `CondEdge` /
`ApplyEdge` receive (`src`, `dst`, `edge`, `eid`), the predicate's result,
and the value written into `d_out` at this flat output position (`none`
when the kernel writes nothing there). -/
structure EdgeEvent where
  src : Int
  dst : Int
  edge : Nat
  eid : Int
  condResult : Bool
  out : Option Int
deriving DecidableEq, Repr

/-- The claim's description of the visit of the `e`-th outgoing edge of
frontier element `j` (stated from the spec's words, to compare with the
kernel embeddings): `CondEdge` on the element's source vertex (or the
constant label when `MARK_PREDECESSORS` is off) and the neighbor at
offset `e`; on true, write the neighbor (V2V) or the edge index
(V2E / E2E); on false, write `-1`. -/
def expectedEvent (P : AdvParams) (j e : Nat) : EdgeEvent :=
  let v := srcVertex P j
  let lookup := (outOffsets P).getD v.toNat 0 + e
  let u := (outIndices P).getD lookup 0
  let srcArg := if P.markPred then v else P.label
  let eidArg := if P.markPred then (j : Int) else edgeId P j
  let c := P.cond srcArg u lookup eidArg
  { src := srcArg, dst := u, edge := lookup, eid := eidArg, condResult := c,
    out := if c then
             (match P.advanceType with
              | .V2V => some u
              | .V2E | .E2E => some (lookup : Int)
              | .E2V => none)
           else some (-1) }

/-- `offset` of the light kernel's block `bid`
(`(THREADS*bid - 1) > 0 ? d_scanned_edges[THREADS*bid-1] : 0`). -/
def lightOffset (P : AdvParams) (T bid : Nat) : Nat :=
  if 1 < T * bid then P.scanned.getD (T * bid - 1) 0 else 0

/-- `s_edges[t]` of the light kernel's block `bid`: the tile-local
inclusive prefix sums, `max_edges` sentinel past the frontier. -/
def lightSE (P : AdvParams) (T maxE bid : Nat) (t : Nat) : Nat :=
  if bid * T + t < P.queue.length
  then P.scanned.getD (bid * T + t) 0 - lightOffset P T bid
  else maxE

/-- `s_vertices[t]` of the light kernel (`max_vertices` sentinel past the
frontier). -/
def lightSV (P : AdvParams) (T maxV bid : Nat) (t : Nat) : Int :=
  if bid * T + t < P.queue.length then srcVertex P (bid * T + t) else (maxV : Int)

/-- `s_edge_ids[t]` of the light kernel. -/
def lightSId (P : AdvParams) (T maxV bid : Nat) (t : Nat) : Int :=
  match P.advanceType with
  | .V2V | .V2E => 0
  | .E2V | .E2E =>
    if bid * T + t < P.queue.length then P.queue.getD (bid * T + t) 0 else (maxV : Int)

/-- `end_id` of the light kernel's block. -/
def lightEndId (P : AdvParams) (T bid : Nat) : Nat :=
  (if P.queue.length ≤ (bid + 1) * T then P.queue.length - 1
   else (bid + 1) * T - 1) % T

/-- `size = s_edges[end_id]`: the number of flat edges this block
processes. -/
def lightSize (P : AdvParams) (T maxE bid : Nat) : Nat :=
  lightSE P T maxE bid (lightEndId P T bid)

/-- The per-thread register state of the kernels' inner loop. -/
structure ThreadState where
  vIndex : Nat
  v : Int
  eId : Int
  endLast : Nat
deriving DecidableEq, Repr

/-- The light kernel's owner (re)computation — textually identical before
the loop and in its `i >= end_last` branch: binary-search `i` in
`s_edges`, reload `v`, `e_id` and `end_last`. -/
def lightRecompute (P : AdvParams) (T maxV maxE bid : Nat) (i : Nat) : ThreadState :=
  let vIdx := leastExceed i ((List.range T).map (lightSE P T maxE bid))
  { vIndex := vIdx,
    v := lightSV P T maxV bid vIdx,
    eId := lightSId P T maxV bid vIdx,
    endLast := if vIdx < T then lightSE P T maxE bid vIdx else maxV }

/-- The body of the light kernel's loop at flat index `i` with thread
state `st`: `internal_offset`, `e`, `lookup`, `u`, the `CondEdge` call
(first argument `v` under MARK_PREDECESSORS else the label; fifth argument
`v_index` under MARK_PREDECESSORS else `e_id`) and the `d_out` write. -/
def lightEventFrom (P : AdvParams) (T maxE bid : Nat) (st : ThreadState)
    (i : Nat) : EdgeEvent :=
  let internal := if 0 < st.vIndex then lightSE P T maxE bid (st.vIndex - 1) else 0
  let e := i - internal
  let lookup := (outOffsets P).getD st.v.toNat 0 + e
  let u := (outIndices P).getD lookup 0
  let srcArg := if P.markPred then st.v else P.label
  let eidArg := if P.markPred then (st.vIndex : Int) else st.eId
  let c := P.cond srcArg u lookup eidArg
  { src := srcArg, dst := u, edge := lookup, eid := eidArg, condResult := c,
    out := if c then
             (match P.advanceType with
              | .V2V => some u
              | .V2E | .E2E => some (lookup : Int)
              | .E2V => none)
           else some (-1) }

/-- The visit the light kernel performs at flat index `i` (state freshly
recomputed at `i`; the thread-level embedding below is proved to coincide
with this). -/
def lightEventAt (P : AdvParams) (T maxV maxE bid : Nat) (i : Nat) : EdgeEvent :=
  lightEventFrom P T maxE bid (lightRecompute P T maxV maxE bid i) i

/-- Thread `tid`'s strided loop of the light kernel: at each owned flat
index `i`, refresh the state when `i >= end_last` (else keep the stale
registers), emit the visit and the write position `offset + i`, advance by
`THREADS`. -/
def lightThreadGo (P : AdvParams) (T maxV maxE bid : Nat) :
    Nat → Nat → ThreadState → List (Nat × EdgeEvent)
  | 0, _, _ => []
  | fuel + 1, i, st =>
    if i < lightSize P T maxE bid then
      let st' := if st.endLast ≤ i then lightRecompute P T maxV maxE bid i else st
      (lightOffset P T bid + i, lightEventFrom P T maxE bid st' i)
        :: lightThreadGo P T maxV maxE bid fuel (i + T) st'
    else []

/-- All visits of thread `tid` in the light kernel: pre-loop state at
`i = tid`, then the strided loop (`size` is enough fuel since `T ≥ 1`). -/
def lightThreadEvents (P : AdvParams) (T maxV maxE bid tid : Nat) :
    List (Nat × EdgeEvent) :=
  lightThreadGo P T maxV maxE bid (lightSize P T maxE bid) tid
    (lightRecompute P T maxV maxE bid tid)

/-- The flat indices a thread starting at `i` with stride `T` visits below
`size`. -/
def strideIdx (T size : Nat) : Nat → Nat → List Nat
  | 0, _ => []
  | fuel + 1, i => if i < size then i :: strideIdx T size fuel (i + T) else []

theorem getD_map_range (f : Nat → Nat) (T t : Nat) (h : t < T) :
    ((List.range T).map f).getD t 0 = f t := by
  rw [List.getD_eq_getElem?_getD, List.getElem?_map,
      List.getElem?_range h]
  rfl

theorem leastExceed_eq (s : List Nat) :
    ∀ j i : Nat, j < s.length → (∀ t, t < j → s.getD t 0 ≤ i) →
    i < s.getD j 0 → leastExceed i s = j := by
  induction s with
  | nil => intro j i hj _ _; simp at hj
  | cons a rest ih =>
    intro j i hj hle hlt
    match j with
    | 0 =>
      unfold leastExceed
      rw [if_pos (by simpa using hlt)]
    | j1 + 1 =>
      have ha : a ≤ i := by simpa using hle 0 (by omega)
      unfold leastExceed
      rw [if_neg (by omega)]
      have := ih j1 i (by simpa using hj)
        (fun t ht => by simpa using hle (t + 1) (by omega))
        (by simpa using hlt)
      omega

theorem leastExceed_le_bound (s : List Nat) :
    ∀ i t : Nat, t < leastExceed i s → s.getD t 0 ≤ i := by
  induction s with
  | nil => intro i t ht; simp [leastExceed] at ht
  | cons a rest ih =>
    intro i t ht
    unfold leastExceed at ht
    by_cases ha : i < a
    · rw [if_pos ha] at ht; omega
    · rw [if_neg ha] at ht
      match t with
      | 0 => simpa using Nat.le_of_not_lt ha
      | t1 + 1 =>
        simpa using ih i t1 (by omega)

theorem leastExceed_full (s : List Nat) :
    ∀ i : Nat, (∀ t, t < s.length → s.getD t 0 ≤ i) → leastExceed i s = s.length := by
  induction s with
  | nil => intro i _; rfl
  | cons a rest ih =>
    intro i hall
    unfold leastExceed
    rw [if_neg (by simpa using Nat.not_lt.mpr (by simpa using hall 0 (by simp)))]
    have := ih i (fun t ht => by simpa using hall (t + 1) (by simpa using ht))
    simp [this]

theorem leastExceed_stale (s : List Nat) (iprev i j : Nat)
    (h1 : leastExceed iprev s = j) (h2 : iprev ≤ i) (h3 : j < s.length)
    (h4 : i < s.getD j 0) : leastExceed i s = j := by
  refine leastExceed_eq s j i h3 (fun t ht => ?_) h4
  have := leastExceed_le_bound s iprev t (by omega)
  omega

theorem exclScan_mono (P : AdvParams) (j j' : Nat) (h : j ≤ j') :
    exclScan P j ≤ exclScan P j' := by
  obtain ⟨d, rfl⟩ : ∃ d, j' = j + d := ⟨j' - j, by omega⟩
  clear h
  induction d with
  | zero => exact Nat.le_refl _
  | succ m ih =>
    have hstep : exclScan P (j + (m + 1)) = exclScan P (j + m) + lenOf P (j + m) := rfl
    omega

theorem lightOffset_zero (P : AdvParams) (T : Nat) : lightOffset P T 0 = 0 := by
  simp [lightOffset]

theorem lightSE_zero_eq (P : AdvParams) (T maxE t : Nat)
    (hscan : ∀ j, j < P.queue.length → P.scanned.getD j 0 = exclScan P (j + 1))
    (ht : t < P.queue.length) :
    lightSE P T maxE 0 t = exclScan P (t + 1) := by
  unfold lightSE
  rw [lightOffset_zero]
  simp only [Nat.zero_mul, Nat.zero_add]
  rw [if_pos ht, hscan t ht]
  omega

theorem lightSV_zero_eq (P : AdvParams) (T maxV t : Nat)
    (ht : t < P.queue.length) : lightSV P T maxV 0 t = srcVertex P t := by
  unfold lightSV
  simp only [Nat.zero_mul, Nat.zero_add]
  rw [if_pos ht]

theorem lightSId_zero_eq (P : AdvParams) (T maxV t : Nat)
    (ht : t < P.queue.length) : lightSId P T maxV 0 t = edgeId P t := by
  unfold lightSId edgeId
  cases P.advanceType <;> simp only [Nat.zero_mul, Nat.zero_add] <;>
    first
      | rfl
      | rw [if_pos ht]

theorem lightSize_zero_eq (P : AdvParams) (T maxE : Nat)
    (hq : P.queue ≠ []) (hT : P.queue.length ≤ T)
    (hscan : ∀ j, j < P.queue.length → P.scanned.getD j 0 = exclScan P (j + 1)) :
    lightSize P T maxE 0 = exclScan P P.queue.length := by
  have hlen : 0 < P.queue.length := List.length_pos.mpr hq
  unfold lightSize lightEndId
  rw [if_pos (by omega)]
  rw [Nat.mod_eq_of_lt (by omega)]
  rw [lightSE_zero_eq P T maxE _ hscan (by omega)]
  congr 1
  omega

theorem light_owner (P : AdvParams) (T maxE : Nat)
    (hT : P.queue.length ≤ T)
    (hscan : ∀ j, j < P.queue.length → P.scanned.getD j 0 = exclScan P (j + 1))
    (j e : Nat) (hj : j < P.queue.length) (he : e < lenOf P j) :
    leastExceed (exclScan P j + e) ((List.range T).map (lightSE P T maxE 0)) = j := by
  apply leastExceed_eq
  · rw [List.length_map, List.length_range]; omega
  · intro t ht
    rw [getD_map_range _ _ _ (by omega)]
    rw [lightSE_zero_eq P T maxE t hscan (by omega)]
    have := exclScan_mono P (t + 1) j (by omega)
    omega
  · rw [getD_map_range _ _ _ (by omega)]
    rw [lightSE_zero_eq P T maxE j hscan hj]
    have hstep : exclScan P (j + 1) = exclScan P j + lenOf P j := rfl
    omega

theorem lightEventAt_eq_expected (P : AdvParams) (T maxV maxE : Nat)
    (hT : P.queue.length ≤ T)
    (hscan : ∀ j, j < P.queue.length → P.scanned.getD j 0 = exclScan P (j + 1))
    (j e : Nat) (hj : j < P.queue.length) (he : e < lenOf P j) :
    lightEventAt P T maxV maxE 0 (exclScan P j + e) = expectedEvent P j e := by
  have hidx : leastExceed (exclScan P j + e)
      ((List.range T).map (lightSE P T maxE 0)) = j :=
    light_owner P T maxE hT hscan j e hj he
  have hinternal : (if 0 < j then lightSE P T maxE 0 (j - 1) else 0)
      = exclScan P j := by
    match j with
    | 0 => rfl
    | j1 + 1 =>
      rw [if_pos (by omega), show j1 + 1 - 1 = j1 by omega,
          lightSE_zero_eq P T maxE j1 hscan (by omega)]
  unfold lightEventAt lightRecompute lightEventFrom
  simp only [hidx, hinternal]
  rw [lightSV_zero_eq P T maxV j hj, lightSId_zero_eq P T maxV j hj]
  have he2 : exclScan P j + e - exclScan P j = e := by omega
  simp only [he2]
  rfl

theorem leastExceed_le_length (s : List Nat) : ∀ i : Nat, leastExceed i s ≤ s.length := by
  induction s with
  | nil => intro i; simp [leastExceed]
  | cons a rest ih =>
    intro i
    unfold leastExceed
    by_cases ha : i < a
    · rw [if_pos ha]; simp
    · rw [if_neg ha]
      have := ih i
      simp only [List.length_cons]
      omega

theorem lightRecompute_stale (P : AdvParams) (T maxV maxE iprev i : Nat)
    (h2 : iprev ≤ i)
    (hstale : i < (lightRecompute P T maxV maxE 0 iprev).endLast) :
    lightRecompute P T maxV maxE 0 i = lightRecompute P T maxV maxE 0 iprev := by
  have hlenS : ((List.range T).map (lightSE P T maxE 0)).length = T := by
    rw [List.length_map, List.length_range]
  by_cases hvt : leastExceed iprev ((List.range T).map (lightSE P T maxE 0)) < T
  · have hend : (lightRecompute P T maxV maxE 0 iprev).endLast
        = ((List.range T).map (lightSE P T maxE 0)).getD
            (leastExceed iprev ((List.range T).map (lightSE P T maxE 0))) 0 := by
      unfold lightRecompute
      simp only [if_pos hvt]
      rw [getD_map_range _ _ _ hvt]
    have hsame : leastExceed i ((List.range T).map (lightSE P T maxE 0))
        = leastExceed iprev ((List.range T).map (lightSE P T maxE 0)) :=
      leastExceed_stale _ iprev i _ rfl h2 (by omega) (by rw [← hend]; exact hstale)
    unfold lightRecompute
    simp only [hsame]
  · have hfull : leastExceed iprev ((List.range T).map (lightSE P T maxE 0))
        = T := by
      have := leastExceed_le_length ((List.range T).map (lightSE P T maxE 0)) iprev
      omega
    have hall : ∀ t, t < ((List.range T).map (lightSE P T maxE 0)).length →
        ((List.range T).map (lightSE P T maxE 0)).getD t 0 ≤ i := by
      intro t ht
      have := leastExceed_le_bound ((List.range T).map (lightSE P T maxE 0)) iprev t
        (by omega)
      omega
    have hfulli : leastExceed i ((List.range T).map (lightSE P T maxE 0)) = T := by
      rw [leastExceed_full _ i hall, hlenS]
    unfold lightRecompute
    simp only [hfulli, hfull]

theorem lightThreadGo_spec (P : AdvParams) (T maxV maxE : Nat) :
    ∀ (fuel i iprev : Nat), iprev ≤ i →
    lightThreadGo P T maxV maxE 0 fuel i (lightRecompute P T maxV maxE 0 iprev)
      = (strideIdx T (lightSize P T maxE 0) fuel i).map
          (fun k => (lightOffset P T 0 + k, lightEventAt P T maxV maxE 0 k)) := by
  intro fuel
  induction fuel with
  | zero => intro i iprev _; rfl
  | succ f ih =>
    intro i iprev hle
    by_cases hi : i < lightSize P T maxE 0
    · have hst : (if (lightRecompute P T maxV maxE 0 iprev).endLast ≤ i
          then lightRecompute P T maxV maxE 0 i
          else lightRecompute P T maxV maxE 0 iprev)
          = lightRecompute P T maxV maxE 0 i := by
        by_cases hrl : (lightRecompute P T maxV maxE 0 iprev).endLast ≤ i
        · rw [if_pos hrl]
        · rw [if_neg hrl]
          exact (lightRecompute_stale P T maxV maxE iprev i hle (by omega)).symm
      show (if i < lightSize P T maxE 0 then _ else []) = _
      rw [if_pos hi]
      unfold strideIdx
      rw [if_pos hi]
      simp only [List.map_cons]
      rw [hst]
      exact congrArg _ (ih (i + T) i (by omega))
    · show (if i < lightSize P T maxE 0 then _ else []) = _
      rw [if_neg hi]
      unfold strideIdx
      rw [if_neg hi]
      rfl

theorem lightThreadEvents_spec (P : AdvParams) (T maxV maxE tid : Nat) :
    lightThreadEvents P T maxV maxE 0 tid
      = (strideIdx T (lightSize P T maxE 0) (lightSize P T maxE 0) tid).map
          (fun k => (lightOffset P T 0 + k, lightEventAt P T maxV maxE 0 k)) :=
  lightThreadGo_spec P T maxV maxE (lightSize P T maxE 0) tid tid (Nat.le_refl tid)

theorem strideIdx_mem (T size : Nat) (hT : 0 < T) :
    ∀ (fuel i0 k : Nat), size ≤ i0 + fuel →
    (k ∈ strideIdx T size fuel i0 ↔ (∃ m, k = i0 + m * T) ∧ k < size) := by
  intro fuel
  induction fuel with
  | zero =>
    intro i0 k hf
    unfold strideIdx
    constructor
    · intro h; exact absurd h (List.not_mem_nil k)
    · rintro ⟨⟨m, rfl⟩, hk⟩
      exact absurd hk (by omega)
  | succ f ih =>
    intro i0 k hf
    unfold strideIdx
    by_cases hi : i0 < size
    · rw [if_pos hi]
      simp only [List.mem_cons]
      rw [ih (i0 + T) k (by omega)]
      constructor
      · rintro (rfl | ⟨⟨m, rfl⟩, hk⟩)
        · exact ⟨⟨0, by omega⟩, hi⟩
        · exact ⟨⟨m + 1, by rw [Nat.succ_mul]; omega⟩, hk⟩
      · rintro ⟨⟨m, rfl⟩, hk⟩
        match m with
        | 0 => left; omega
        | m1 + 1 =>
          right
          refine ⟨⟨m1, ?_⟩, hk⟩
          rw [Nat.succ_mul]
          omega
    · rw [if_neg hi]
      constructor
      · intro h; exact absurd h (List.not_mem_nil k)
      · rintro ⟨⟨m, rfl⟩, hk⟩
        exact absurd hk (by omega)

theorem strideIdx_partition (T size : Nat) (hT : 0 < T) (i : Nat)
    (hi : i < size) (tid : Nat) (htid : tid < T) :
    i ∈ strideIdx T size size tid ↔ tid = i % T := by
  rw [strideIdx_mem T size hT size tid i (by omega)]
  constructor
  · rintro ⟨⟨m, rfl⟩, _⟩
    rw [Nat.add_mul_mod_self_right, Nat.mod_eq_of_lt htid]
  · rintro rfl
    exact ⟨⟨i / T, by rw [Nat.mod_add_div']⟩, hi⟩

theorem flatIndex_inj (P : AdvParams) (j e j' e' : Nat)
    (he : e < lenOf P j) (he' : e' < lenOf P j')
    (heq : exclScan P j + e = exclScan P j' + e') : j = j' ∧ e = e' := by
  rcases lt_trichotomy j j' with h | h | h
  · exfalso
    have h1 : exclScan P (j + 1) = exclScan P j + lenOf P j := rfl
    have h2 := exclScan_mono P (j + 1) j' (by omega)
    omega
  · subst h
    omega
  · exfalso
    have h1 : exclScan P (j' + 1) = exclScan P j' + lenOf P j' := rfl
    have h2 := exclScan_mono P (j' + 1) j (by omega)
    omega

theorem flatIndex_surj (P : AdvParams) :
    ∀ n i : Nat, i < exclScan P n →
    ∃ j e, j < n ∧ e < lenOf P j ∧ i = exclScan P j + e := by
  intro n
  induction n with
  | zero => intro i hi; exact absurd hi (by simp [exclScan])
  | succ m ih =>
    intro i hi
    by_cases hlt : i < exclScan P m
    · obtain ⟨j, e, hj, he, hie⟩ := ih i hlt
      exact ⟨j, e, by omega, he, hie⟩
    · refine ⟨m, i - exclScan P m, by omega, ?_, by omega⟩
      have h1 : exclScan P (m + 1) = exclScan P m + lenOf P m := rfl
      omega

/-- `s_vertices[t]` of `RelaxPartitionedEdges2`'s tile starting at frontier
element `start` (sentinel `-1` past `my_end_partition`). -/
def partSV (P : AdvParams) (myEnd start t : Nat) : Int :=
  if start + t < myEnd then srcVertex P (start + t) else -1

/-- `s_edge_ids[t]` of the partitioned kernel's tile. -/
def partSId (P : AdvParams) (myEnd start t : Nat) : Int :=
  match P.advanceType with
  | .V2V | .V2E => 0
  | .E2V | .E2E => if start + t < myEnd then P.queue.getD (start + t) 0 else -1

/-- `s_edges[t]` of the partitioned kernel's tile. -/
def partSE (P : AdvParams) (maxE myEnd start preOffset t : Nat) : Nat :=
  if start + t < myEnd then P.scanned.getD (start + t) 0 - preOffset else maxE

/-- The partitioned kernel's pre-loop state (test_utils.h:699-704):
`v = s_vertices[v_index]`, `e_id = s_edge_ids[v_index]`,
`end_last = v_index < my_end_partition ? s_edges[v_index] : max_edges`. -/
def partInit (P : AdvParams) (T maxE myEnd start preOffset : Nat)
    (i0 : Nat) : ThreadState :=
  let sE := partSE P maxE myEnd start preOffset
  let vIdx := leastExceed i0 ((List.range T).map sE)
  { vIndex := vIdx,
    v := partSV P myEnd start vIdx,
    eId := partSId P myEnd start vIdx,
    endLast := if vIdx < myEnd then sE vIdx else maxE }

/-- The partitioned kernel's in-loop recompute branch
(test_utils.h:708-722).  Note the E2V / E2E assignments differ from the
tile initialization: `v` is obtained by indexing `column_indices` with
`s_vertices[v_index]` — which already holds the mapped vertex — and
`e_id` is set to `s_vertices[v_index]` (the mapped vertex) instead of the
edge id; the fallback bound also compares `v_index` against `THREADS`
instead of `my_end_partition`. -/
def partRecompute (P : AdvParams) (T maxE myEnd start preOffset : Nat)
    (i : Nat) : ThreadState :=
  let sE := partSE P maxE myEnd start preOffset
  let vIdx := leastExceed i ((List.range T).map sE)
  let v := match P.advanceType with
    | .V2V | .V2E => partSV P myEnd start vIdx
    | .E2V | .E2E =>
      if P.inputInverse then
        P.invColIndices.getD (partSV P myEnd start vIdx).toNat 0
      else
        P.colIndices.getD (partSV P myEnd start vIdx).toNat 0
  let eId := match P.advanceType with
    | .V2V | .V2E => 0
    | .E2V | .E2E => partSV P myEnd start vIdx
  { vIndex := vIdx, v := v, eId := eId,
    endLast := if vIdx < T then sE vIdx else maxE }

/-- The partitioned kernel's loop body at flat tile index `i` with state
`st` (test_utils.h:724-880): `internal_offset` and `lookup_offset` are
state registers updated exactly alongside `v_index` and `v`, so they are
recovered from `st` here; `u = d_column_indices[lookup]`; `CondEdge` gets
`(label|v, u, lookup, e_id)`. -/
def partEventFrom (P : AdvParams) (maxE myEnd start preOffset : Nat)
    (st : ThreadState) (i : Nat) : EdgeEvent :=
  let internal := if 0 < st.vIndex
    then partSE P maxE myEnd start preOffset (st.vIndex - 1) else 0
  let e := i - internal
  let lookup := P.rowOffsets.getD st.v.toNat 0 + e
  let u := P.colIndices.getD lookup 0
  let srcArg := if P.markPred then st.v else P.label
  let c := P.cond srcArg u lookup st.eId
  { src := srcArg, dst := u, edge := lookup, eid := st.eId, condResult := c,
    out := if c then
             (match P.advanceType with
              | .V2V => some u
              | .V2E | .E2E => some (lookup : Int)
              | .E2V => none)
           else some (-1) }

/-- Thread loop of one partitioned tile:
`for (i = tid + e_offset; i < e_last + e_offset; i += THREADS)` with the
stale / recompute state machine; emits `(out_index, visit)` pairs with
`out_index = out_offset + edges_processed + (i - e_offset)`. -/
def partThreadGo (P : AdvParams) (T maxE myEnd start preOffset eOff eLast outBase : Nat) :
    Nat → Nat → ThreadState → List (Nat × EdgeEvent)
  | 0, _, _ => []
  | fuel + 1, i, st =>
    if i < eLast + eOff then
      let st' := if st.endLast ≤ i
        then partRecompute P T maxE myEnd start preOffset i else st
      (outBase + (i - eOff), partEventFrom P maxE myEnd start preOffset st' i)
        :: partThreadGo P T maxE myEnd start preOffset eOff eLast outBase fuel (i + T) st'
    else []

/-- One tile round of the partitioned kernel's while loop, for all `T`
threads. -/
def partTileRound (P : AdvParams) (T maxE myEnd start preOffset eOff eLast outBase : Nat) :
    List (Nat × EdgeEvent) :=
  ((List.range T).map (fun tid =>
    partThreadGo P T maxE myEnd start preOffset eOff eLast outBase
      (eLast + eOff) (tid + eOff)
      (partInit P T maxE myEnd start preOffset (tid + eOff)))).flatten

/-- The partitioned kernel's tile loop
(`while (edges_processed < my_work_size && my_start_partition < my_end_partition)`). -/
def partTileLoop (P : AdvParams) (T maxE myEnd myWork outOffset : Nat) :
    Nat → Nat → Nat → Nat → List (Nat × EdgeEvent)
  | 0, _, _, _ => []
  | fuel + 1, start, eOff, ep =>
    if ep < myWork ∧ start < myEnd then
      let preOffset := if 0 < start then P.scanned.getD (start - 1) 0 else 0
      let last := if myEnd ≤ start + T then myEnd - start - 1 else T - 1
      let eLast := min (partSE P maxE myEnd start preOffset last - eOff) (myWork - ep)
      partTileRound P T maxE myEnd start preOffset eOff eLast (outOffset + ep)
        ++ partTileLoop P T maxE myEnd myWork outOffset fuel (start + T) 0 (ep + eLast)
    else []

/-- The visits block `bid` of `RelaxPartitionedEdges2` performs
(test_utils.h:573-889): chunk bounds from `partition_size` and
`output_queue_len`, tile bounds from `partition_starts` (the sorted-search
result) and `input_queue_len`, then the tile loop. -/
def relaxPartitionedBlockEvents (P : AdvParams)
    (T maxE partitionSize outputQueueLen bid : Nat)
    (partitionStarts : Nat → Nat) : List (Nat × EdgeEvent) :=
  let myThreadStart := bid * partitionSize
  if outputQueueLen ≤ myThreadStart then []
  else
    let myThreadEnd := min ((bid + 1) * partitionSize) outputQueueLen
    let myStart := partitionStarts bid
    let myEnd := max (partitionStarts (bid + 1)) P.queue.length
    let myWork := myThreadEnd - myThreadStart
    let pre0 := if 0 < myStart then P.scanned.getD (myStart - 1) 0 else 0
    partTileLoop P T maxE myEnd myWork (bid * partitionSize)
      (myEnd + 1) myStart (myThreadStart - pre0) 0

/-- The claim's description of the partitioned kernel's visit of the
`e`-th outgoing edge of frontier element `j` (this kernel expands the
forward CSR; the fifth `CondEdge` argument is the element's edge id in
both functor branches). -/
def partExpectedEvent (P : AdvParams) (j e : Nat) : EdgeEvent :=
  let v := srcVertex P j
  let lookup := P.rowOffsets.getD v.toNat 0 + e
  let u := P.colIndices.getD lookup 0
  let srcArg := if P.markPred then v else P.label
  let c := P.cond srcArg u lookup (edgeId P j)
  { src := srcArg, dst := u, edge := lookup, eid := edgeId P j, condResult := c,
    out := if c then
             (match P.advanceType with
              | .V2V => some u
              | .V2E | .E2E => some (lookup : Int)
              | .E2V => none)
           else some (-1) }

/-- A concrete E2E advance input: CSR `row_offsets = [0,1,2,4]`,
`column_indices = [1,2,0,3]`, edge frontier `[0, 1]`, scanned
neighbor-count prefix sums `[1, 3]` (element 0 = edge 0 with head vertex
1, degree 1; element 1 = edge 1 with head vertex 2, degree 2). -/
def advE2ECex : AdvParams :=
  { advanceType := .E2E, markPred := false, label := 7,
    inputInverse := false, outputInverse := false,
    rowOffsets := [0, 1, 2, 4], colIndices := [1, 2, 0, 3],
    invRowOffsets := [], invColIndices := [],
    queue := [0, 1], scanned := [1, 3],
    cond := fun _ _ _ _ => true }

/-- The sorted-search partition starts for one block of 3 flat edges over
`advE2ECex` (lower bound of `bid * partition_size` in the scanned
array). -/
def advE2ECexStarts : Nat → Nat := fun b => if b = 0 then 0 else 1

/-- C2: the light load-balanced path is correct — each thread's strided
loop (with its stale / recompute register state) visits exactly
`lightEventAt` at each owned flat index, the threads partition the flat
indices, the flat index `exclScan j + e` belongs to the `e`-th outgoing
edge of frontier element `j` bijectively, and the visit there is the
claim's `expectedEvent` (CondEdge on the right source and neighbor, the
neighbor written in V2V mode, the edge index in V2E/E2E, `-1` on a false
predicate).  The partitioned path however diverges on E2E input: its
in-loop recompute branch double-indexes `column_indices`, so the visit at
flat position `2 = exclScan 1 + 1` uses edge 1 instead of edge 3 and the
mapped vertex 2 as its `e_id` — while the light path on the very same
input produces the expected visit. -/
theorem lb_advance_visits_each_edge_once :
    (∀ (P : AdvParams) (T maxV maxE : Nat), 0 < T → P.queue ≠ [] →
      P.queue.length ≤ T →
      (∀ j, j < P.queue.length → P.scanned.getD j 0 = exclScan P (j + 1)) →
      (∀ tid : Nat, lightThreadEvents P T maxV maxE 0 tid
        = (strideIdx T (lightSize P T maxE 0) (lightSize P T maxE 0) tid).map
            (fun k => (lightOffset P T 0 + k, lightEventAt P T maxV maxE 0 k)))
      ∧ (∀ i tid : Nat, i < lightSize P T maxE 0 → tid < T →
          (i ∈ strideIdx T (lightSize P T maxE 0) (lightSize P T maxE 0) tid
            ↔ tid = i % T))
      ∧ lightSize P T maxE 0 = exclScan P P.queue.length
      ∧ (∀ j e : Nat, j < P.queue.length → e < lenOf P j →
          lightEventAt P T maxV maxE 0 (exclScan P j + e) = expectedEvent P j e)
      ∧ (∀ j e j' e' : Nat, e < lenOf P j → e' < lenOf P j' →
          exclScan P j + e = exclScan P j' + e' → j = j' ∧ e = e')
      ∧ (∀ i : Nat, i < exclScan P P.queue.length →
          ∃ j e, j < P.queue.length ∧ e < lenOf P j ∧ i = exclScan P j + e))
    ∧ ((relaxPartitionedBlockEvents advE2ECex 2 100 3 3 0 advE2ECexStarts).filter
          (fun pe => pe.1 == 2)).map (fun pe => pe.2)
        = [{ src := 7, dst := 2, edge := 1, eid := 2, condResult := true,
             out := some 1 }]
    ∧ partExpectedEvent advE2ECex 1 1
        = { src := 7, dst := 3, edge := 3, eid := 1, condResult := true,
            out := some 3 }
    ∧ exclScan advE2ECex 1 + 1 = 2
    ∧ ((lightThreadEvents advE2ECex 2 100 100 0 0).filter
          (fun pe => pe.1 == 2)).map (fun pe => pe.2)
        = [{ src := 7, dst := 3, edge := 3, eid := 1, condResult := true,
             out := some 3 }] := by
  refine ⟨?_, by decide, by decide, by decide, by decide⟩
  intro P T maxV maxE hT hq hle hscan
  refine ⟨fun tid => lightThreadEvents_spec P T maxV maxE tid,
    fun i tid hi htid => strideIdx_partition T _ hT i hi tid htid,
    lightSize_zero_eq P T maxE hq hle hscan,
    fun j e hj he => lightEventAt_eq_expected P T maxV maxE hle hscan j e hj he,
    fun j e j' e' he he' heq => flatIndex_inj P j e j' e' he he' heq,
    fun i hi => flatIndex_surj P P.queue.length i hi⟩

theorem lb_advance_visits_each_edge_once_witness :
    lightEventAt
      { advanceType := .V2V, markPred := false, label := 5,
        inputInverse := false, outputInverse := false,
        rowOffsets := [0, 1, 2], colIndices := [1, 0],
        invRowOffsets := [], invColIndices := [],
        queue := [0, 1], scanned := [1, 2],
        cond := fun _ u _ _ => u ≠ 0 } 2 100 100 0
      (exclScan
        { advanceType := .V2V, markPred := false, label := 5,
          inputInverse := false, outputInverse := false,
          rowOffsets := [0, 1, 2], colIndices := [1, 0],
          invRowOffsets := [], invColIndices := [],
          queue := [0, 1], scanned := [1, 2],
          cond := fun _ u _ _ => u ≠ 0 } 1 + 0)
      = expectedEvent
        { advanceType := .V2V, markPred := false, label := 5,
          inputInverse := false, outputInverse := false,
          rowOffsets := [0, 1, 2], colIndices := [1, 0],
          invRowOffsets := [], invColIndices := [],
          queue := [0, 1], scanned := [1, 2],
          cond := fun _ u _ _ => u ≠ 0 } 1 0 :=
  (lb_advance_visits_each_edge_once.1
    { advanceType := .V2V, markPred := false, label := 5,
      inputInverse := false, outputInverse := false,
      rowOffsets := [0, 1, 2], colIndices := [1, 0],
      invRowOffsets := [], invColIndices := [],
      queue := [0, 1], scanned := [1, 2],
      cond := fun _ u _ _ => u ≠ 0 } 2 100 100
    (by decide) (by decide) (by decide)
    (by
      intro j hj
      have hlen : ([(0 : Int), 1]).length = 2 := by decide
      have h2 : j = 0 ∨ j = 1 := by
        simp only [hlen] at hj
        omega
      rcases h2 with h | h <;> subst h <;> decide)).2.2.2.1 1 0
    (by decide) (by decide)

end Gunrock